import Mathlib

/-!
Verification development for the mysql adaptor module (src/Adaptor.js).

The module threads a pipeline State through a sequence of Operations.
Operations are modelled as functions from a State object (together with a
fresh-object-id supply and the module/driver world) to an outcome: either
the next State object or an error, together with the updated supply, the
updated world and a trace of observable driver events.

JavaScript strings are modelled as lists of characters (`Str`), JavaScript
objects holding pipeline state are modelled as `JObj` (an object identity
plus the record of named fields), and driver result values are modelled as
plain JSON-like data (`JValue`).  The external collaborators (the squel
query builder, the mysql driver's format/escape/query functions, the
JSON.stringify/JSON.parse pair, and the language-common helpers
`commonExecute` and `expandReferences`) are modelled explicitly below,
each next to the definition that uses it.
-/

namespace Adaptor

/-- JavaScript strings, modelled as lists of characters. -/
abbrev Str := List Char

/-- Left brace character, kept symbolic. -/
def braceL : Char := Char.ofNat 123

/-- Right brace character, kept symbolic. -/
def braceR : Char := Char.ofNat 125

/-- A concrete SQL field value: a (integral) number or a string, the two
value shapes exercised by the adaptor's field objects. -/
inductive SqlValue where
  | int (n : Int)
  | str (s : Str)
deriving DecidableEq

/-- JSON-like plain data: the shape of results returned by the mysql
driver's query callback (rows, row objects, scalar cells). -/
inductive JValue where
  | null
  | num (n : Int)
  | str (s : Str)
  | arr (vs : List JValue)
  | obj (kvs : List (Str × JValue))

/-- Connection parameters, read from `state.configuration`. -/
structure Config where
  host : Str
  port : Int
  database : Str
  user : Str
  password : Str
deriving DecidableEq

/-- A driver connection object, as created by `mysql.createConnection`. -/
structure Conn where
  config : Config
deriving DecidableEq

/-- The `response` record attached to State: `\x7b body: <driver result> \x7d`. -/
structure RespRec where
  body : JValue

/-- The named fields of a pipeline State object.  A field of value `none`
models the property being absent from the JavaScript object. -/
structure SqlFields where
  configuration : Option Config
  connection : Option Conn
  references : Option (List JValue)
  data : Option JValue
  response : Option RespRec

/-- A State object: an object identity (so that returning the received
object can be told apart from returning a fresh copy) plus its fields. -/
structure JObj where
  oid : Nat
  fields : SqlFields

/-- Observable driver events of a pipeline run. -/
inductive Ev where
  | connectEv
  | query (stmt : Str)
  | endCall
deriving DecidableEq

/-- Errors an Operation can reject with: a driver-reported query error
(carried verbatim) or a JavaScript TypeError (e.g. property access on
undefined). -/
inductive Err where
  | db (e : Str)
  | typeError

/-- The value currently held by the module-scope `sqlString` binding:
initially the exported function, overwritten by `insert` with a string. -/
inductive Binding where
  | fn
  | str (s : Str)

/-- The world outside the State: the driver's behaviour (what
`connection.query` reports for each statement text) and the module-scope
`sqlString` binding. -/
structure World where
  db : Str → Except Str JValue
  sqlStringBinding : Binding

/-- Outcome of running one Operation (or a sequence): the settled result
of the pending State, the next fresh object id, the updated world and the
trace of driver events, in order. -/
structure RunOut where
  res : Except Err JObj
  fresh : Nat
  world : World
  trace : List Ev

/-- An Operation: from a State object (plus id supply and world) to an
outcome. -/
abbrev Op := JObj → Nat → World → RunOut

/-- A field specification entry: either a concrete value or a
back-reference, i.e. a function of the current State. -/
inductive FieldSpec where
  | val (v : SqlValue)
  | fromState (g : SqlFields → SqlValue)

/-- Modelled from the spec: `expandReferences` (language-common, not part
of this repository's sources) resolves a fields specification against the
current State, substituting embedded back-references by the value they
denote there and leaving concrete values unchanged. -/
def resolveFields (f : List (Str × FieldSpec)) (s : SqlFields) :
    List (Str × SqlValue) :=
  f.map fun p =>
    (p.1, match p.2 with
          | .val v => v
          | .fromState g => g s)

/-- One escaped character of a string literal, as produced by the mysql
driver's escaping (sqlstring): backslash-escapes for quote, backslash,
double quote, and the control characters NUL, backspace, tab, newline,
carriage return and SUB. -/
def escStrChar (c : Char) : Str :=
  if c = '\'' then ['\\', '\'']
  else if c = '\\' then ['\\', '\\']
  else if c = '"' then ['\\', '"']
  else if c.toNat = 0 then ['\\', '0']
  else if c.toNat = 8 then ['\\', 'b']
  else if c.toNat = 9 then ['\\', 't']
  else if c = '\n' then ['\\', 'n']
  else if c = '\r' then ['\\', 'r']
  else if c.toNat = 26 then ['\\', 'Z']
  else [c]

/-- Model of the mysql driver's value escaping: numbers print as decimal
text, strings are single-quoted with their characters escaped. -/
def escapeVal : SqlValue → Str
  | .int n => (toString n).data
  | .str s => '\'' :: (s.flatMap escStrChar) ++ ['\'']

/-- Model of squel's automatic field-name quoting (backquotes). -/
def quoteId (k : Str) : Str := "`".data ++ k ++ "`".data

/-- JavaScript `Array.prototype.join` with a separator. -/
def joinWith (sep : Str) : List Str → Str
  | [] => []
  | [x] => x
  | x :: y :: xs => x ++ sep ++ joinWith sep (y :: xs)

/-- Model of squel's `insert().into(table).setFields(obj).toParam().text`
for the mysql flavour with `autoQuoteFieldNames`: the INSERT statement
text with one `?` placeholder per field, fields in object order. -/
def squelInsertText (t : Str) (keys : List Str) : Str :=
  "INSERT INTO ".data ++ t ++ " (".data ++
    joinWith ", ".data (keys.map quoteId) ++
    ") VALUES (".data ++
    joinWith ", ".data (keys.map fun _ => ['?']) ++ [')']

/-- Model of squel's `update().table('').setFields(obj).toParam().text`:
squel drops the empty table block, so the rendered text is
`UPDATE SET` followed by the placeholder assignment list. -/
def squelUpdateText (keys : List Str) : Str :=
  "UPDATE SET ".data ++
    joinWith ", ".data (keys.map fun k => quoteId k ++ " = ?".data)

/-- Model of `mysql.format`: scan the statement text left to right and
replace each `?` placeholder by the next escaped value; text inserted for
a value is not rescanned, and placeholders beyond the value list are left
untouched. -/
def mysqlFormat : Str → List SqlValue → Str
  | [], _ => []
  | c :: rest, vs =>
    if c = '?' then
      match vs with
      | v :: vs' => escapeVal v ++ mysqlFormat rest vs'
      | [] => '?' :: mysqlFormat rest []
    else c :: mysqlFormat rest vs

/-- The formatted INSERT statement built by `insert`/`upsert`
(Adaptor.js lines 81-91 and 138-148): squel's parameterized text filled
in by `mysql.format`. -/
def insertStatement (t : Str) (fv : List (Str × SqlValue)) : Str :=
  mysqlFormat (squelInsertText t (fv.map Prod.fst)) (fv.map Prod.snd)

/-- The formatted companion UPDATE statement built by `upsert`
(Adaptor.js lines 150-160). -/
def updateStatement (fv : List (Str × SqlValue)) : Str :=
  mysqlFormat (squelUpdateText (fv.map Prod.fst)) (fv.map Prod.snd)

/-- The combined statement built by `upsert` (Adaptor.js lines 162-163):
the INSERT statement, the literal ` ON DUPLICATE KEY UPDATE `, and the
UPDATE statement with its first 10 characters sliced off. -/
def upsertStatement (t : Str) (fv : List (Str × SqlValue)) : Str :=
  insertStatement t fv ++ " ON DUPLICATE KEY UPDATE ".data ++
    (updateStatement fv).drop 10

/-- Direct rendering of the INSERT statement from the field list: used to
state what `insertStatement` contains (same quoted names, same escaped
values, in field order). -/
def insertRendered (t : Str) (fv : List (Str × SqlValue)) : Str :=
  "INSERT INTO ".data ++ t ++ " (".data ++
    joinWith ", ".data (fv.map fun p => quoteId p.1) ++
    ") VALUES (".data ++
    joinWith ", ".data (fv.map fun p => escapeVal p.2) ++ [')']

/-- Direct rendering of the assignment list `\x60k\x60 = v, ...` from the
field list. -/
def assignListR (fv : List (Str × SqlValue)) : Str :=
  joinWith ", ".data (fv.map fun p => quoteId p.1 ++ " = ".data ++ escapeVal p.2)

/-- The characters of the `ON DUPLICATE KEY UPDATE` clause keyword. -/
def odkuPat : Str := "ON DUPLICATE KEY UPDATE".data

/-- Number of positions at which `p` occurs as a contiguous substring. -/
def occCount (p : Str) : Str → Nat
  | [] => 0
  | c :: rest => (if p.isPrefixOf (c :: rest) then 1 else 0) + occCount p rest

/-- Decimal digit test on characters. -/
def isDigitC (c : Char) : Bool := 48 ≤ c.toNat && c.toNat ≤ 57

/-- Big-endian decimal digits of a natural number, fuel-driven; fuel `f`
suffices whenever `n < 10 ^ f`, and `natRenderAux f 0 = []`. -/
def natRenderAux : Nat → Nat → Str
  | 0, _ => []
  | f + 1, n =>
    if n = 0 then [] else natRenderAux f (n / 10) ++ [Nat.digitChar (n % 10)]

/-- Decimal text of a natural number. -/
def natRender (n : Nat) : Str :=
  if n = 0 then ['0'] else natRenderAux (n + 1) n

/-- Decimal text of an integer, as JSON.stringify prints integral
numbers. -/
def intRender (n : Int) : Str :=
  if n < 0 then '-' :: natRender n.natAbs else natRender n.natAbs

/-- One JSON-escaped character of a string body (escapes the double quote
and the backslash; control characters are outside the modelled domain and
are excluded by the `plainB` hypothesis where it matters). -/
def jEsc (c : Char) : Str :=
  if c = '"' then ['\\', '"']
  else if c = '\\' then ['\\', '\\']
  else [c]

/-- JSON rendering of a string: double-quoted, characters escaped. -/
def strRender (s : Str) : Str := '"' :: (s.flatMap jEsc) ++ ['"']

mutual

/-- Model of `JSON.stringify` on plain driver-result data. -/
def jsonStringify : JValue → Str
  | .null => "null".data
  | .num n => intRender n
  | .str s => strRender s
  | .arr vs => '[' :: jsonStringifyList vs ++ [']']
  | .obj kvs => braceL :: jsonStringifyMembers kvs ++ [braceR]

/-- Comma-joined renderings of array elements. -/
def jsonStringifyList : List JValue → Str
  | [] => []
  | [v] => jsonStringify v
  | v :: w :: vs => jsonStringify v ++ ',' :: jsonStringifyList (w :: vs)

/-- Comma-joined renderings of object members (`"key":value`). -/
def jsonStringifyMembers : List (Str × JValue) → Str
  | [] => []
  | [kv] => strRender kv.1 ++ ':' :: jsonStringify kv.2
  | kv :: kw :: kvs =>
    strRender kv.1 ++ ':' :: jsonStringify kv.2 ++ ',' ::
      jsonStringifyMembers (kw :: kvs)

end

mutual

/-- Structural size of a JSON value, used as parser fuel bound. -/
def jm : JValue → Nat
  | .null => 1
  | .num _ => 1
  | .str _ => 1
  | .arr vs => 1 + jmL vs
  | .obj kvs => 1 + jmKV kvs

/-- Structural size of an element list. -/
def jmL : List JValue → Nat
  | [] => 0
  | v :: vs => 1 + jm v + jmL vs

/-- Structural size of a member list. -/
def jmKV : List (Str × JValue) → Nat
  | [] => 0
  | kv :: kvs => 1 + jm kv.2 + jmKV kvs

end

mutual

/-- All string data in the value is free of control characters, i.e. of
characters that real JSON.stringify would escape beyond the quote and
backslash escapes modelled by `jEsc`. -/
def plainB : JValue → Bool
  | .null => true
  | .num _ => true
  | .str s => s.all fun c => 32 ≤ c.toNat
  | .arr vs => plainL vs
  | .obj kvs => plainKV kvs

/-- `plainB` over an element list. -/
def plainL : List JValue → Bool
  | [] => true
  | v :: vs => plainB v && plainL vs

/-- `plainB` over a member list. -/
def plainKV : List (Str × JValue) → Bool
  | [] => true
  | kv :: kvs => (kv.1.all fun c => 32 ≤ c.toNat) && plainB kv.2 && plainKV kvs

end

/-- Un-escape one JSON string escape character. -/
def jUnesc (c : Char) : Option Char :=
  if c = '"' then some '"'
  else if c = '\\' then some '\\'
  else none

/-- Parse a JSON string body up to its closing quote; returns the decoded
characters and the remaining input. -/
def parseJStr : Str → Option (Str × Str)
  | [] => none
  | '"' :: rest => some ([], rest)
  | '\\' :: e :: rest2 =>
    match jUnesc e with
    | some u => (parseJStr rest2).map fun p => (u :: p.1, p.2)
    | none => none
  | ['\\'] => none
  | c :: rest => (parseJStr rest).map fun p => (c :: p.1, p.2)

/-- Consume a maximal run of decimal digits, folding them onto `acc`. -/
def parseDigitsAux : Nat → Str → Nat × Str
  | acc, [] => (acc, [])
  | acc, c :: rest =>
    if isDigitC c then parseDigitsAux (acc * 10 + (c.toNat - 48)) rest
    else (acc, c :: rest)

/-- Parse a natural number (at least one leading digit required). -/
def parseNatNum : Str → Option (Nat × Str)
  | [] => none
  | c :: rest =>
    if isDigitC c then some (parseDigitsAux (c.toNat - 48) rest) else none

/-- Parse a JSON number (optional minus sign, then digits). -/
def parseNum (s : Str) : Option (JValue × Str) :=
  match s with
  | [] => none
  | c :: rest =>
    if c = '-' then
      match parseNatNum rest with
      | some p => some (.num (-(p.1 : Int)), p.2)
      | none => none
    else
      match parseNatNum (c :: rest) with
      | some p => some (.num (p.1 : Int), p.2)
      | none => none

mutual

/-- Fuel-driven model of `JSON.parse`'s value parser on the whitespace-free
texts produced by `jsonStringify`; returns the value and remaining input. -/
def parseVal : Nat → Str → Option (JValue × Str)
  | 0, _ => none
  | _ + 1, [] => none
  | f + 1, c :: rest =>
    if c = '"' then (parseJStr rest).map fun p => (.str p.1, p.2)
    else if c = '[' then
      if rest.head? = some ']' then some (.arr [], rest.tail)
      else (parseItems f rest).map fun p => (.arr p.1, p.2)
    else if c = braceL then
      if rest.head? = some braceR then some (.obj [], rest.tail)
      else (parseMembers f rest).map fun p => (.obj p.1, p.2)
    else if c = 'n' then
      match rest with
      | 'u' :: 'l' :: 'l' :: r => some (.null, r)
      | _ => none
    else parseNum (c :: rest)

/-- Parse one or more comma-separated array elements plus the closing
bracket. -/
def parseItems : Nat → Str → Option (List JValue × Str)
  | 0, _ => none
  | f + 1, s =>
    match parseVal f s with
    | none => none
    | some p =>
      if p.2.head? = some ',' then
        match parseItems f p.2.tail with
        | some q => some (p.1 :: q.1, q.2)
        | none => none
      else if p.2.head? = some ']' then some ([p.1], p.2.tail)
      else none

/-- Parse one or more comma-separated object members plus the closing
brace. -/
def parseMembers : Nat → Str → Option (List (Str × JValue) × Str)
  | 0, _ => none
  | f + 1, s =>
    if s.head? = some '"' then
      match parseJStr s.tail with
      | none => none
      | some kp =>
        if kp.2.head? = some ':' then
          match parseVal f kp.2.tail with
          | none => none
          | some vp =>
            if vp.2.head? = some ',' then
              match parseMembers f vp.2.tail with
              | some q => some ((kp.1, vp.1) :: q.1, q.2)
              | none => none
            else if vp.2.head? = some braceR then
              some ([(kp.1, vp.1)], vp.2.tail)
            else none
        else none
    else none

end

/-- Model of `JSON.parse`: parse one value and require the whole input to
be consumed. -/
def jsonParse (s : Str) : Option JValue :=
  match parseVal s.length s with
  | some (v, []) => some v
  | _ => none

/-- `connect` (Adaptor.js lines 36-50): read the connection parameters
from `state.configuration` (a TypeError if absent), create and open a
connection, and return a fresh spread copy of the State with `connection`
set. -/
def connect : Op := fun s n w =>
  match s.fields.configuration with
  | none => ⟨.error .typeError, n, w, []⟩
  | some cfg =>
    ⟨.ok ⟨n, { s.fields with connection := some ⟨cfg⟩ }⟩, n + 1, w,
      [.connectEv]⟩

/-- `disconnect` (Adaptor.js lines 52-55): call `end()` on
`state.connection` (a TypeError if absent) and return the received State
object itself, unchanged. -/
def disconnect : Op := fun s n w =>
  match s.fields.connection with
  | none => ⟨.error .typeError, n, w, []⟩
  | some _ => ⟨.ok s, n, w, [.endCall]⟩

/-- `cleanupState` (Adaptor.js lines 57-60): delete `state.connection`
from the received State object in place and return that same object. -/
def cleanupState : Op := fun s n w =>
  ⟨.ok ⟨s.oid, { s.fields with connection := none }⟩, n, w, []⟩

/-- The `new Promise(...).then(...)` block shared verbatim by `insert`,
`upsert` and `sqlString` (Adaptor.js lines 95-116, 167-188, 210-227):
run `connection.query(stmt, cb)` (a TypeError if `connection` is absent);
on a driver error, reject with that error and call `connection.end()`;
on success, post-process the results (`post` is the identity for
`insert`/`upsert` and the JSON round-trip for `sqlString`) and resolve to
a fresh spread copy of the State with `response` set to
`\x7b body: data \x7d`. -/
def runQueryPromise (stmt : Str) (post : JValue → Option JValue) :
    JObj → Nat → World → RunOut := fun s n w =>
  match s.fields.connection with
  | none => ⟨.error .typeError, n, w, []⟩
  | some _ =>
    match w.db stmt with
    | .error e => ⟨.error (.db e), n, w, [.query stmt, .endCall]⟩
    | .ok results =>
      match post results with
      | none => ⟨.error .typeError, n, w, [.query stmt]⟩
      | some body =>
        ⟨.ok ⟨n, { s.fields with response := some ⟨body⟩ }⟩, n + 1, w,
          [.query stmt]⟩

/-- `insert(table, fields)` (Adaptor.js lines 73-118): resolve the fields
against the State, build the INSERT statement, assign its formatted text
to the module-scope `sqlString` binding (line 91 has no local
declaration), then execute it. -/
def insert (t : Str) (f : List (Str × FieldSpec)) : Op := fun s n w =>
  let stmt := insertStatement t (resolveFields f s.fields)
  runQueryPromise stmt some s n { w with sqlStringBinding := .str stmt }

/-- `upsert(table, fields)` (Adaptor.js lines 130-190): resolve the fields
against the State, build the INSERT and companion UPDATE statements,
splice them into the single upsert statement, then execute it (all
intermediate strings are local `const`s; no module binding is touched). -/
def upsert (t : Str) (f : List (Str × FieldSpec)) : Op := fun s n w =>
  runQueryPromise (upsertStatement t (resolveFields f s.fields)) some s n w

/-- `sqlString(fun)` (Adaptor.js lines 202-229): render the literal
statement from the State, execute it verbatim, and round-trip the driver
results through `JSON.parse(JSON.stringify(results))` before attaching
them as `response.body`. -/
def sqlString (fn : SqlFields → Str) : Op := fun s n w =>
  runQueryPromise (fn s.fields) (fun d => jsonParse (jsonStringify d)) s n w

/-- Modelled from the spec: the Pipeline Executor `commonExecute`
(language-common, not part of this repository's sources) composes an
Operation sequence left to right: each Operation receives the State
produced by its predecessor, and a rejection short-circuits the rest of
the sequence and propagates unrecovered. -/
def commonExecute : List Op → Op
  | [], s, n, w => ⟨.ok s, n, w, []⟩
  | op :: rest, s, n, w =>
    let r := op s n w
    match r.res with
    | .error e => ⟨.error e, r.fresh, r.world, r.trace⟩
    | .ok s' =>
      let r2 := commonExecute rest s' r.fresh r.world
      ⟨r2.res, r2.fresh, r2.world, r.trace ++ r2.trace⟩

/-- The initial-state spread `\x7b ...initialState, ...state \x7d`
(Adaptor.js lines 21-24, 32): default `references` to `[]` and `data` to
`null` when the caller's State lacks them. -/
def spreadInit (f : SqlFields) : SqlFields :=
  { f with
    references := some (f.references.getD []),
    data := some (f.data.getD .null) }

/-- `execute(...operations)` (Adaptor.js lines 20-34): wrap the
user-supplied sequence as `[connect, ...operations, disconnect,
cleanupState]` and run it on a fresh spread copy of the caller's State. -/
def execute (ops : List Op) : Op := fun s n w =>
  commonExecute (connect :: ops ++ [disconnect, cleanupState])
    ⟨n, spreadInit s.fields⟩ (n + 1) w

/-- A zero-side-effect user Operation: a pure function on the State's
fields, no events, no world change, no failure. -/
def liftPure (g : SqlFields → SqlFields) : Op := fun s n w =>
  ⟨.ok ⟨s.oid, g s.fields⟩, n, w, []⟩

/-- The three query-executing Operation constructors of the module. -/
inductive QueryOp where
  | ins (t : Str) (f : List (Str × FieldSpec))
  | ups (t : Str) (f : List (Str × FieldSpec))
  | sqlS (fn : SqlFields → Str)

/-- The Operation a `QueryOp` denotes. -/
def mkQueryOp : QueryOp → Op
  | .ins t f => insert t f
  | .ups t f => upsert t f
  | .sqlS fn => sqlString fn

/-- The statement text a `QueryOp` sends to the driver from a given
State. -/
def queryStringOf (q : QueryOp) (s : SqlFields) : Str :=
  match q with
  | .ins t f => insertStatement t (resolveFields f s)
  | .ups t f => upsertStatement t (resolveFields f s)
  | .sqlS fn => fn s

/-- A sample configuration for concrete instantiations. -/
def cfg0 : Config :=
  ⟨"localhost".data, 3306, "db".data, "u".data, "p".data⟩

/-- Sample fields of a caller-supplied State (connection absent). -/
def fields0 : SqlFields := ⟨some cfg0, none, none, none, none⟩

/-- Sample fields with an open connection. -/
def fieldsC : SqlFields := ⟨some cfg0, some ⟨cfg0⟩, some [], some .null, none⟩

/-- A sample caller State object. -/
def S0 : JObj := ⟨0, fields0⟩

/-- A sample mid-pipeline State object with a connection. -/
def SC : JObj := ⟨0, fieldsC⟩

/-- A world whose driver reports the given result for every statement. -/
def wOk (d : JValue) : World := ⟨fun _ => .ok d, .fn⟩

/-- A world whose driver reports the given error for every statement. -/
def wErr (e : Str) : World := ⟨fun _ => .error e, .fn⟩

/-- The starting positions of occurrences of `p` in `s`. -/
def occStarts (p s : Str) : List Nat :=
  (List.range s.length).filter fun i => p.isPrefixOf (s.drop i)

/-- The State produced by `connect` inside `execute`: a fresh object
carrying the spread-initialized fields plus the opened connection. -/
def afterConnect (s : JObj) (n : Nat) (cfg : Config) : JObj :=
  ⟨n + 1, { spreadInit s.fields with connection := some ⟨cfg⟩ }⟩

/-- The input does not begin with a decimal digit (so greedy number
parsing cannot run past its token). -/
def noDigitHead (s : Str) : Prop :=
  ∀ c, s.head? = some c → isDigitC c = false

/-- Formatting skips over placeholder-free text verbatim. -/
lemma mysqlFormat_append_noQ (a : Str) (b : Str) (vs : List SqlValue)
    (h : '?' ∉ a) : mysqlFormat (a ++ b) vs = a ++ mysqlFormat b vs := by
  induction a generalizing vs with
  | nil => simp
  | cons c a ih =>
    have hc : c ≠ '?' := fun hc => h (hc ▸ List.mem_cons_self c a)
    have ha : '?' ∉ a := fun hm => h (List.mem_cons_of_mem c hm)
    simp [mysqlFormat, hc, ih _ ha]

/-- Formatting steps over a non-placeholder character. -/
lemma mysqlFormat_cons_noq (c : Char) (b : Str) (vs : List SqlValue)
    (h : c ≠ '?') : mysqlFormat (c :: b) vs = c :: mysqlFormat b vs := by
  simp [mysqlFormat, h]

/-- Formatting substitutes the next value for a placeholder. -/
lemma mysqlFormat_cons_q (b : Str) (v : SqlValue) (vs : List SqlValue) :
    mysqlFormat ('?' :: b) (v :: vs) = escapeVal v ++ mysqlFormat b vs := by
  simp [mysqlFormat]

/-- Quoting a placeholder-free name yields placeholder-free text. -/
lemma noQ_quoteId (k : Str) (h : '?' ∉ k) : '?' ∉ quoteId k := by
  intro hm
  simp only [quoteId] at hm
  rcases List.mem_append.mp hm with hm | hm
  · rcases List.mem_append.mp hm with hm | hm
    · exact absurd hm (by decide)
    · exact h hm
  · exact absurd hm (by decide)

/-- Joining placeholder-free pieces with `, ` yields placeholder-free
text. -/
lemma noQ_joinWith (xs : List Str) (h : ∀ x ∈ xs, '?' ∉ x) :
    '?' ∉ joinWith ", ".data xs := by
  induction xs with
  | nil => simp [joinWith]
  | cons x xs ih =>
    cases xs with
    | nil => simpa [joinWith] using h x (List.mem_cons_self x [])
    | cons y ys =>
      intro hm
      simp only [joinWith] at hm
      rcases List.mem_append.mp hm with hm | hm
      · rcases List.mem_append.mp hm with hm | hm
        · exact h x (List.mem_cons_self x _) hm
        · exact absurd hm (by decide)
      · exact ih (fun z hz => h z (List.mem_cons_of_mem x hz)) hm

/-- Formatting the placeholder list of an INSERT consumes the values in
order, producing the comma-joined escaped values. -/
lemma mysqlFormat_placeholders (fv : List (Str × SqlValue)) (rest : Str) :
    mysqlFormat (joinWith ", ".data (fv.map fun _ => ['?']) ++ rest)
      (fv.map Prod.snd) =
    joinWith ", ".data (fv.map fun p => escapeVal p.2) ++ mysqlFormat rest [] := by
  induction fv with
  | nil => simp [joinWith]
  | cons p fv ih =>
    cases fv with
    | nil =>
      have e1 : joinWith ", ".data (([p]).map fun _ => (['?'] : Str)) ++ rest =
          '?' :: rest := by simp [joinWith]
      rw [show ([p]).map Prod.snd = [p.2] from rfl, e1, mysqlFormat_cons_q]
      simp [joinWith]
    | cons q fv' =>
      have e1 : joinWith ", ".data ((p :: q :: fv').map fun _ => (['?'] : Str))
          ++ rest =
          '?' :: ',' :: ' ' ::
          (joinWith ", ".data ((q :: fv').map fun _ => (['?'] : Str)) ++ rest) := by
        simp [joinWith]
      rw [show (p :: q :: fv').map Prod.snd = p.2 :: (q :: fv').map Prod.snd
            from rfl,
        e1, mysqlFormat_cons_q, mysqlFormat_cons_noq _ _ _ (by decide),
        mysqlFormat_cons_noq _ _ _ (by decide), ih]
      simp [joinWith]

/-- Formatting the assignment list of the UPDATE statement consumes the
values in order, producing the comma-joined rendered assignments. -/
lemma mysqlFormat_assignments (fv : List (Str × SqlValue)) (rest : Str)
    (hk : ∀ p ∈ fv, '?' ∉ p.1) :
    mysqlFormat (joinWith ", ".data (fv.map fun p => quoteId p.1 ++ " = ?".data)
        ++ rest) (fv.map Prod.snd) =
    assignListR fv ++ mysqlFormat rest [] := by
  induction fv with
  | nil => simp [joinWith, assignListR]
  | cons p fv ih =>
    have hq : '?' ∉ quoteId p.1 ++ " = ".data := by
      intro hm
      rcases List.mem_append.mp hm with hm | hm
      · exact noQ_quoteId p.1 (hk p (List.mem_cons_self p fv)) hm
      · exact absurd hm (by decide)
    cases fv with
    | nil =>
      have e1 : joinWith ", ".data
            (([p]).map fun r => quoteId r.1 ++ " = ?".data) ++ rest =
          (quoteId p.1 ++ " = ".data) ++ ('?' :: rest) := by simp [joinWith]
      rw [show ([p]).map Prod.snd = [p.2] from rfl, e1,
        mysqlFormat_append_noQ _ _ _ hq, mysqlFormat_cons_q]
      simp [assignListR, joinWith]
    | cons q fv' =>
      have hk' : ∀ r ∈ q :: fv', '?' ∉ r.1 := fun r hr =>
        hk r (List.mem_cons_of_mem p hr)
      have e1 : joinWith ", ".data
            ((p :: q :: fv').map fun r => quoteId r.1 ++ " = ?".data) ++ rest =
          (quoteId p.1 ++ " = ".data) ++ ('?' :: ',' :: ' ' ::
          (joinWith ", ".data
            ((q :: fv').map fun r => quoteId r.1 ++ " = ?".data) ++ rest)) := by
        simp [joinWith]
      rw [show (p :: q :: fv').map Prod.snd = p.2 :: (q :: fv').map Prod.snd
            from rfl,
        e1, mysqlFormat_append_noQ _ _ _ hq, mysqlFormat_cons_q,
        mysqlFormat_cons_noq _ _ _ (by decide),
        mysqlFormat_cons_noq _ _ _ (by decide), ih hk']
      simp [assignListR, joinWith]

/-- The formatted INSERT statement is exactly the direct rendering: the
same quoted field names and the same escaped values, in field order. -/
lemma insertStatement_eq (t : Str) (fv : List (Str × SqlValue))
    (ht : '?' ∉ t) (hk : ∀ p ∈ fv, '?' ∉ p.1) :
    insertStatement t fv = insertRendered t fv := by
  have hA : '?' ∉ "INSERT INTO ".data ++ t ++ " (".data ++
      joinWith ", ".data ((fv.map Prod.fst).map quoteId) ++
      ") VALUES (".data := by
    intro hm
    rcases List.mem_append.mp hm with hm | hm
    · rcases List.mem_append.mp hm with hm | hm
      · rcases List.mem_append.mp hm with hm | hm
        · rcases List.mem_append.mp hm with hm | hm
          · exact absurd hm (by decide)
          · exact ht hm
        · exact absurd hm (by decide)
      · refine absurd hm (noQ_joinWith _ ?_)
        intro x hx
        rcases List.mem_map.mp hx with ⟨k, hkm, rfl⟩
        rcases List.mem_map.mp hkm with ⟨p, hp, rfl⟩
        exact noQ_quoteId _ (hk p hp)
    · exact absurd hm (by decide)
  have hsplit : squelInsertText t (fv.map Prod.fst) =
      ("INSERT INTO ".data ++ t ++ " (".data ++
        joinWith ", ".data ((fv.map Prod.fst).map quoteId) ++
        ") VALUES (".data) ++
      (joinWith ", ".data (fv.map fun _ => ['?']) ++ [')']) := by
    simp only [squelInsertText, List.map_map, List.append_assoc]
    rw [show ((fun _ => (['?'] : Str)) ∘ (Prod.fst : Str × SqlValue → Str)) =
      (fun _ : Str × SqlValue => (['?'] : Str)) from rfl]
  rw [insertStatement, hsplit, mysqlFormat_append_noQ _ _ _ hA,
    mysqlFormat_placeholders]
  simp only [insertRendered, mysqlFormat, List.map_map, List.append_assoc]
  rfl

/-- The formatted UPDATE statement is `UPDATE SET ` followed by the
directly rendered assignment list. -/
lemma updateStatement_eq (fv : List (Str × SqlValue))
    (hk : ∀ p ∈ fv, '?' ∉ p.1) :
    updateStatement fv = "UPDATE SET ".data ++ assignListR fv := by
  have hsplit : squelUpdateText (fv.map Prod.fst) =
      "UPDATE SET ".data ++
      (joinWith ", ".data (fv.map fun p => quoteId p.1 ++ " = ?".data) ++ []) := by
    simp only [squelUpdateText, List.map_map, List.append_nil]
    rfl
  rw [updateStatement, hsplit, mysqlFormat_append_noQ _ _ _ (by decide),
    mysqlFormat_assignments _ _ hk]
  simp [mysqlFormat]

/-- Occurrence starts in a cons: position 0 when `p` is a prefix, plus
the shifted occurrence starts in the tail. -/
lemma occStarts_cons (p : Str) (c : Char) (t : Str) :
    occStarts p (c :: t) =
    (if p.isPrefixOf (c :: t) then [0] else []) ++
      (occStarts p t).map Nat.succ := by
  simp only [occStarts, List.length_cons, List.range_succ_eq_map,
    List.filter_cons, List.drop_zero, List.filter_map]
  by_cases h : p.isPrefixOf (c :: t)
  · simp only [h, if_true]
    congr 1
  · simp only [h, Bool.false_eq_true, if_false]
    congr 1

/-- `occCount` is the number of occurrence starting positions. -/
lemma occCount_eq_length (p s : Str) :
    occCount p s = (occStarts p s).length := by
  induction s with
  | nil => simp [occCount, occStarts]
  | cons c t ih =>
    rw [occCount, occStarts_cons, ih]
    by_cases h : p.isPrefixOf (c :: t)
    · simp [h]
      omega
    · simp [h]

/-- Occurrence starting positions are distinct. -/
lemma occStarts_nodup (p s : Str) : (occStarts p s).Nodup :=
  (List.nodup_range s.length).filter _

/-- A member of `occStarts` marks a prefix occurrence. -/
lemma mem_occStarts (p s : Str) (i : Nat) (h : i ∈ occStarts p s) :
    p.isPrefixOf (s.drop i) := by
  simpa using (List.mem_filter.mp h).2

/-- The number of positions of `s` holding the character `c`, indexed
over `range s.length`, is the count of `c` in `s`. -/
lemma filter_positions_count (s : Str) (c : Char) :
    ((List.range s.length).filter fun i => decide (s[i]? = some c)).length =
    s.count c := by
  induction s with
  | nil => simp
  | cons a t ih =>
    simp only [List.length_cons, List.range_succ_eq_map, List.filter_cons,
      List.getElem?_cons_zero, List.filter_map]
    have hcomp : List.filter
        ((fun i => decide ((a :: t)[i]? = some c)) ∘ Nat.succ)
        (List.range t.length) =
        List.filter (fun i => decide (t[i]? = some c)) (List.range t.length) := by
      apply List.filter_congr
      intro i hi
      simp [Function.comp, List.getElem?_cons_succ]
    by_cases h : a = c
    · subst h
      simp [List.count_cons, ← ih, List.length_map, hcomp]
    · simp [h, List.count_cons, ← ih, List.length_map, hcomp]

/-- If some position `j` of the pattern holds character `c`, then the
number of pattern occurrences is at most the count of `c` (each
occurrence pins `c` at a distinct absolute position). -/
lemma occCount_le_count (p s : Str) (c : Char) (j : Nat)
    (hj : p[j]? = some c) : occCount p s ≤ s.count c := by
  rw [occCount_eq_length]
  have hmap : ((occStarts p s).map fun i => i + j) ⊆
      (List.range s.length).filter fun i => decide (s[i]? = some c) := by
    intro x hx
    rcases List.mem_map.mp hx with ⟨i, hi, rfl⟩
    have hpre := mem_occStarts p s i hi
    rcases (List.isPrefixOf_iff_prefix.mp hpre : ∃ t, p ++ t = s.drop i)
      with ⟨tl, htl⟩
    have hjlen : j < p.length := (List.getElem?_eq_some.mp hj).1
    have h1 : (s.drop i)[j]? = some c := by
      rw [← htl, List.getElem?_append_left hjlen, hj]
    have h2 : s[i + j]? = some c := by
      rw [← List.getElem?_drop]
      exact h1
    have h3 : i + j < s.length := (List.getElem?_eq_some.mp h2).1
    refine List.mem_filter.mpr ⟨List.mem_range.mpr h3, ?_⟩
    simp [h2]
  have hnd : (((occStarts p s)).map fun i => i + j).Nodup :=
    (occStarts_nodup p s).map fun a b hab => by omega
  calc (occStarts p s).length
      = (((occStarts p s)).map fun i => i + j).length := by
        rw [List.length_map]
    _ ≤ ((List.range s.length).filter fun i => decide (s[i]? = some c)).length :=
        (hnd.subperm hmap).length_le
    _ = s.count c := filter_positions_count s c

/-- A pattern spliced into a string occurs at least once. -/
lemma occCount_infix_pos (p a b : Str) (hp : p ≠ []) :
    1 ≤ occCount p (a ++ (p ++ b)) := by
  induction a with
  | nil =>
    rcases p with _ | ⟨c, p'⟩
    · exact absurd rfl hp
    · have hpre : (c :: p').isPrefixOf ((c :: p') ++ b) = true :=
        List.isPrefixOf_iff_prefix.mpr ⟨b, rfl⟩
      simp only [List.nil_append, List.cons_append, occCount]
      rw [show (c :: p') ++ b = c :: (p' ++ b) from rfl] at hpre
      simp [hpre]
  | cons x a ih =>
    simp only [List.cons_append, occCount]
    have ih' : 1 ≤ occCount p (List.append a (p ++ b)) := ih
    omega

/-- Running the empty sequence is the identity. -/
lemma commonExecute_nil (s : JObj) (n : Nat) (w : World) :
    commonExecute [] s n w = ⟨.ok s, n, w, []⟩ := rfl

/-- Running a cons whose head succeeds continues with the produced
State. -/
lemma commonExecute_cons_ok {op : Op} {ops : List Op} {s : JObj} {n : Nat}
    {w : World} {s₁ : JObj} {n₁ : Nat} {w₁ : World} {tr₁ : List Ev}
    (h : op s n w = ⟨.ok s₁, n₁, w₁, tr₁⟩) :
    commonExecute (op :: ops) s n w =
      ⟨(commonExecute ops s₁ n₁ w₁).res, (commonExecute ops s₁ n₁ w₁).fresh,
       (commonExecute ops s₁ n₁ w₁).world,
       tr₁ ++ (commonExecute ops s₁ n₁ w₁).trace⟩ := by
  simp [commonExecute, h]

/-- Running a cons whose head fails stops with that failure. -/
lemma commonExecute_cons_err {op : Op} {ops : List Op} {s : JObj} {n : Nat}
    {w : World} {e : Err} {n₁ : Nat} {w₁ : World} {tr₁ : List Ev}
    (h : op s n w = ⟨.error e, n₁, w₁, tr₁⟩) :
    commonExecute (op :: ops) s n w = ⟨.error e, n₁, w₁, tr₁⟩ := by
  simp [commonExecute, h]

/-- Sequential decomposition of a run of `xs ++ ys`. -/
lemma commonExecute_append (xs ys : List Op) (s : JObj) (n : Nat) (w : World) :
    commonExecute (xs ++ ys) s n w =
      (let r := commonExecute xs s n w
       match r.res with
       | .error e => ⟨.error e, r.fresh, r.world, r.trace⟩
       | .ok s' =>
         let r2 := commonExecute ys s' r.fresh r.world
         ⟨r2.res, r2.fresh, r2.world, r.trace ++ r2.trace⟩) := by
  induction xs generalizing s n w with
  | nil => simp [commonExecute]
  | cons op xs ih =>
    cases hres : (op s n w).res with
    | error e => simp [commonExecute, hres]
    | ok s₁ =>
      cases hres2 :
          (commonExecute xs s₁ (op s n w).fresh (op s n w).world).res with
      | error e2 => simp [commonExecute, hres, ih, hres2]
      | ok s₂ => simp [commonExecute, hres, ih, hres2]

/-- A successful prefix run continues into the suffix. -/
lemma commonExecute_append_ok {xs : List Op} (ys : List Op) {s : JObj}
    {n : Nat} {w : World} {s' : JObj} {n' : Nat} {w' : World} {tr : List Ev}
    (h : commonExecute xs s n w = ⟨.ok s', n', w', tr⟩) :
    commonExecute (xs ++ ys) s n w =
      ⟨(commonExecute ys s' n' w').res, (commonExecute ys s' n' w').fresh,
       (commonExecute ys s' n' w').world,
       tr ++ (commonExecute ys s' n' w').trace⟩ := by
  rw [commonExecute_append, h]

/-- A failing prefix run short-circuits the suffix. -/
lemma commonExecute_append_err {xs : List Op} (ys : List Op) {s : JObj}
    {n : Nat} {w : World} {e : Err} {n' : Nat} {w' : World} {tr : List Ev}
    (h : commonExecute xs s n w = ⟨.error e, n', w', tr⟩) :
    commonExecute (xs ++ ys) s n w = ⟨.error e, n', w', tr⟩ := by
  rw [commonExecute_append, h]

/-- C5: the Pipeline Executor applied to zero-side-effect Operations is
exactly the left-to-right fold of the Operations over the initial State:
each Operation receives its predecessor's output, the empty sequence is
the identity, and a single Operation acts as itself. -/
theorem pipeline_executor_foldl (fs : List (SqlFields → SqlFields))
    (s : JObj) (n : Nat) (w : World) :
    commonExecute (fs.map liftPure) s n w =
      ⟨.ok ⟨s.oid, fs.foldl (fun a g => g a) s.fields⟩, n, w, []⟩ := by
  induction fs generalizing s with
  | nil => simp [commonExecute]
  | cons g fs ih => simp [commonExecute, liftPure, ih]

/-- The `connect` step of `execute` in explicit form. -/
lemma connect_in_execute {s : JObj} {n : Nat} {w : World} {cfg : Config}
    (hcfg : s.fields.configuration = some cfg) :
    connect ⟨n, spreadInit s.fields⟩ (n + 1) w =
      ⟨.ok (afterConnect s n cfg), n + 2, w, [.connectEv]⟩ := by
  have : (spreadInit s.fields).configuration = some cfg := hcfg
  simp [connect, afterConnect, this]

/-- C3: on the success path, `execute(...ops)(s)` runs the sequence
`[connect, ...ops, disconnect, cleanup]` in that order: `connect` runs
first and exactly once (its event heads the trace and the user Operations
receive its output State), the user Operations run left to right from
`connect`'s output, and `disconnect` followed by `cleanupState` run after
the last user Operation completes (the close event follows the user
trace, and the cleanup transform applies to the user sequence's final
State). -/
theorem execute_success_bracketing (ops : List Op) (s : JObj) (n : Nat)
    (w : World) (cfg : Config) (s₂ : JObj) (n₂ : Nat) (w₂ : World)
    (tr : List Ev) (c : Conn)
    (hcfg : s.fields.configuration = some cfg)
    (hrun : commonExecute ops (afterConnect s n cfg) (n + 2) w =
      ⟨.ok s₂, n₂, w₂, tr⟩)
    (hconn : s₂.fields.connection = some c) :
    execute ops s n w =
      ⟨.ok ⟨s₂.oid, { s₂.fields with connection := none }⟩, n₂, w₂,
        .connectEv :: (tr ++ [.endCall])⟩ := by
  unfold execute
  rw [List.cons_append]
  have h1 := @commonExecute_cons_ok connect (ops ++ [disconnect, cleanupState])
    ⟨n, spreadInit s.fields⟩ (n + 1) w (afterConnect s n cfg) (n + 2) w
    [.connectEv] (@connect_in_execute s n w cfg hcfg)
  rw [h1]
  rw [commonExecute_append_ok _ hrun]
  have hd : disconnect s₂ n₂ w₂ = ⟨.ok s₂, n₂, w₂, [.endCall]⟩ := by
    simp [disconnect, hconn]
  have htail : commonExecute [disconnect, cleanupState] s₂ n₂ w₂ =
      ⟨.ok ⟨s₂.oid, { s₂.fields with connection := none }⟩, n₂, w₂,
        [.endCall]⟩ := by
    rw [commonExecute_cons_ok hd]
    rw [commonExecute_cons_ok
      (show cleanupState s₂ n₂ w₂ =
        ⟨.ok ⟨s₂.oid, { s₂.fields with connection := none }⟩, n₂, w₂, []⟩
        from rfl)]
    simp [commonExecute]
  rw [htail]
  simp

/-- Shared decomposition of `execute` when the Operation at some
position rejects: the run ends with exactly that error and exactly the
events up to and including the failing Operation; the result does not
depend on the Operations after the failing one (`post` does not occur on
the right-hand side). -/
lemma execute_fail_decomp {pre post : List Op} {op : Op} {s : JObj}
    {n : Nat} {w : World} {cfg : Config} {s₁ : JObj} {n₁ : Nat} {w₁ : World}
    {tr₁ : List Ev} {e : Err} {n₂ : Nat} {w₂ : World} {tr₂ : List Ev}
    (hcfg : s.fields.configuration = some cfg)
    (hpre : commonExecute pre (afterConnect s n cfg) (n + 2) w =
      ⟨.ok s₁, n₁, w₁, tr₁⟩)
    (hop : op s₁ n₁ w₁ = ⟨.error e, n₂, w₂, tr₂⟩) :
    execute (pre ++ op :: post) s n w =
      ⟨.error e, n₂, w₂, .connectEv :: (tr₁ ++ tr₂)⟩ := by
  unfold execute
  rw [List.cons_append]
  have h1 := @commonExecute_cons_ok connect
    ((pre ++ op :: post) ++ [disconnect, cleanupState])
    ⟨n, spreadInit s.fields⟩ (n + 1) w (afterConnect s n cfg) (n + 2) w
    [.connectEv] (@connect_in_execute s n w cfg hcfg)
  rw [h1]
  rw [show (pre ++ op :: post) ++ [disconnect, cleanupState] =
    pre ++ (op :: (post ++ [disconnect, cleanupState])) by simp]
  rw [commonExecute_append_ok _ hpre]
  rw [commonExecute_cons_err hop]
  simp

/-- C4: if the Operation at position `i` of the composed sequence rejects,
no later Operation (including the appended `disconnect` and
`cleanupState`) is invoked — the run's outcome is independent of `post`
and of the appended lifecycle Operations, whose events never appear — and
the failure is propagated unrecovered to the caller of `execute`. -/
theorem execute_short_circuits (pre post : List Op) (op : Op) (s : JObj)
    (n : Nat) (w : World) (cfg : Config) (s₁ : JObj) (n₁ : Nat) (w₁ : World)
    (tr₁ : List Ev) (e : Err) (n₂ : Nat) (w₂ : World) (tr₂ : List Ev)
    (hcfg : s.fields.configuration = some cfg)
    (hpre : commonExecute pre (afterConnect s n cfg) (n + 2) w =
      ⟨.ok s₁, n₁, w₁, tr₁⟩)
    (hop : op s₁ n₁ w₁ = ⟨.error e, n₂, w₂, tr₂⟩) :
    execute (pre ++ op :: post) s n w =
      ⟨.error e, n₂, w₂, .connectEv :: (tr₁ ++ tr₂)⟩ :=
  execute_fail_decomp hcfg hpre hop

/-- On a driver error the three query-executing Operations reject with
that error after emitting the query and exactly one close call. -/
lemma queryOp_fail {q : QueryOp} {s₁ : JObj} {n₁ : Nat} {w₁ : World}
    {c : Conn} {e : Str}
    (hconn : s₁.fields.connection = some c)
    (hdb : w₁.db (queryStringOf q s₁.fields) = .error e) :
    ∃ w', mkQueryOp q s₁ n₁ w₁ =
      ⟨.error (.db e), n₁, w',
        [.query (queryStringOf q s₁.fields), .endCall]⟩ := by
  cases q with
  | ins t f =>
    refine ⟨⟨w₁.db, Binding.str (insertStatement t (resolveFields f s₁.fields))⟩, ?_⟩
    simp only [queryStringOf] at hdb
    simp [mkQueryOp, insert, runQueryPromise, hconn, hdb, queryStringOf]
  | ups t f =>
    refine ⟨w₁, ?_⟩
    simp only [queryStringOf] at hdb
    simp [mkQueryOp, upsert, runQueryPromise, hconn, hdb, queryStringOf]
  | sqlS fn =>
    refine ⟨w₁, ?_⟩
    simp only [queryStringOf] at hdb
    simp [mkQueryOp, sqlString, runQueryPromise, hconn, hdb, queryStringOf]

/-- C2: when a query-executing Operation in the pipeline meets a
driver-reported query error (the Operations before it having succeeded
without close calls), the pending result of `execute` rejects with
exactly that driver error, and over the whole run the connection's `end`
method is called exactly once. -/
theorem execute_query_error_one_close (q : QueryOp) (pre post : List Op)
    (s : JObj) (n : Nat) (w : World) (cfg : Config) (s₁ : JObj) (n₁ : Nat)
    (w₁ : World) (tr₁ : List Ev) (c : Conn) (e : Str)
    (hcfg : s.fields.configuration = some cfg)
    (hpre : commonExecute pre (afterConnect s n cfg) (n + 2) w =
      ⟨.ok s₁, n₁, w₁, tr₁⟩)
    (hnoend : tr₁.count .endCall = 0)
    (hconn : s₁.fields.connection = some c)
    (hdb : w₁.db (queryStringOf q s₁.fields) = .error e) :
    (execute (pre ++ mkQueryOp q :: post) s n w).res = .error (.db e) ∧
    (execute (pre ++ mkQueryOp q :: post) s n w).trace.count .endCall = 1 := by
  obtain ⟨w', hq⟩ := queryOp_fail hconn hdb
  rw [execute_fail_decomp hcfg hpre hq]
  refine ⟨rfl, ?_⟩
  simp [List.count_cons, List.count_append, hnoend]

/-- C10: the Operation returned by `insert` assigns the formatted SQL
text to the module-scope `sqlString` binding (Adaptor.js line 91 has no
local declaration): after it runs on any State — whatever the outcome —
the module's `sqlString` binding holds that string and no longer denotes
a function. -/
theorem insert_clobbers_sqlString_binding (t : Str)
    (f : List (Str × FieldSpec)) (s : JObj) (n : Nat) (w : World) :
    (insert t f s n w).world.sqlStringBinding =
      .str (insertStatement t (resolveFields f s.fields)) ∧
    (insert t f s n w).world.sqlStringBinding ≠ .fn := by
  have h : (insert t f s n w).world.sqlStringBinding =
      .str (insertStatement t (resolveFields f s.fields)) := by
    simp only [insert, runQueryPromise]
    cases s.fields.connection with
    | none => rfl
    | some c =>
      cases w.db (insertStatement t (resolveFields f s.fields)) with
      | error e => rfl
      | ok d => rfl
  exact ⟨h, by rw [h]; intro hx; exact Binding.noConfusion hx⟩

/-- Concrete instantiation of `execute_success_bracketing`: the empty
user sequence runs `[connect, disconnect, cleanup]` and returns the
cleaned-up State. -/
theorem execute_success_bracketing_witness :
    execute [] S0 0 (wOk .null) =
      ⟨.ok ⟨(afterConnect S0 0 cfg0).oid,
            { (afterConnect S0 0 cfg0).fields with connection := none }⟩,
        2, wOk .null, .connectEv :: ([] ++ [.endCall])⟩ :=
  execute_success_bracketing [] S0 0 (wOk .null) cfg0
    (afterConnect S0 0 cfg0) 2 (wOk .null) [] ⟨cfg0⟩ rfl rfl rfl

/-- Concrete instantiation of `execute_short_circuits`: a failing
`sqlString` Operation aborts the run with the driver error, before
`disconnect` and `cleanupState`. -/
theorem execute_short_circuits_witness :
    execute ([] ++ sqlString (fun _ => "SELECT 1".data) :: []) S0 0
        (wErr "boom".data) =
      ⟨.error (.db "boom".data), 2, wErr "boom".data,
        .connectEv :: ([] ++ [.query "SELECT 1".data, .endCall])⟩ :=
  execute_short_circuits [] [] (sqlString fun _ => "SELECT 1".data) S0 0
    (wErr "boom".data) cfg0 (afterConnect S0 0 cfg0) 2 (wErr "boom".data) []
    (.db "boom".data) 2 (wErr "boom".data)
    [.query "SELECT 1".data, .endCall] rfl rfl rfl

/-- Concrete instantiation of `execute_query_error_one_close`: a
pipeline whose one query Operation hits a driver error rejects with that
error and records exactly one close call. -/
theorem execute_query_error_one_close_witness :
    (execute ([] ++ mkQueryOp (.sqlS fun _ => "SELECT 1".data) :: []) S0 0
        (wErr "boom".data)).res = .error (.db "boom".data) ∧
    (execute ([] ++ mkQueryOp (.sqlS fun _ => "SELECT 1".data) :: []) S0 0
        (wErr "boom".data)).trace.count .endCall = 1 :=
  execute_query_error_one_close (.sqlS fun _ => "SELECT 1".data) [] [] S0 0
    (wErr "boom".data) cfg0 (afterConnect S0 0 cfg0) 2 (wErr "boom".data) []
    ⟨cfg0⟩ "boom".data rfl rfl rfl rfl rfl

/-- With a connection present, the query promise is determined by the
driver's verdict and the post-processing step. -/
lemma runQueryPromise_eq_some (stmt : Str) (post : JValue → Option JValue)
    (s : JObj) (n : Nat) (w : World) (c : Conn)
    (hc : s.fields.connection = some c) :
    runQueryPromise stmt post s n w =
      (match w.db stmt with
       | .error e => ⟨.error (.db e), n, w, [.query stmt, .endCall]⟩
       | .ok results =>
         match post results with
         | none => ⟨.error .typeError, n, w, [.query stmt]⟩
         | some body =>
           ⟨.ok ⟨n, { s.fields with response := some ⟨body⟩ }⟩, n + 1, w,
             [.query stmt]⟩) := by
  simp [runQueryPromise, hc]

/-- On success, the query promise produces a fresh State object (at the
allocator's next id) that differs from the received one only in
`response`. -/
lemma runQueryPromise_ok_shape {stmt : Str} {post : JValue → Option JValue}
    {s : JObj} {n : Nat} {w : World} {s' : JObj}
    (h : (runQueryPromise stmt post s n w).res = .ok s') :
    ∃ b, s' = ⟨n, { s.fields with response := some ⟨b⟩ }⟩ := by
  cases hc : s.fields.connection with
  | none =>
    have hnone : runQueryPromise stmt post s n w =
        ⟨.error .typeError, n, w, []⟩ := by
      simp [runQueryPromise, hc]
    rw [hnone] at h
    simp at h
  | some c =>
    rw [runQueryPromise_eq_some stmt post s n w c hc] at h
    cases hd : w.db stmt with
    | error e => simp [hd] at h
    | ok d =>
      cases hp : post d with
      | none => simp [hd, hp] at h
      | some b =>
        simp only [hd, hp, Except.ok.injEq] at h
        exact ⟨b, h.symm⟩

/-- The successful outcome of any query-executing Operation has the
shape of a fresh response-updated State. -/
lemma mkQueryOp_ok_shape {q : QueryOp} {s : JObj} {n : Nat} {w : World}
    {s' : JObj} (h : (mkQueryOp q s n w).res = .ok s') :
    ∃ b, s' = ⟨n, { s.fields with response := some ⟨b⟩ }⟩ := by
  cases q with
  | ins t f => exact runQueryPromise_ok_shape h
  | ups t f => exact runQueryPromise_ok_shape h
  | sqlS fn => exact runQueryPromise_ok_shape h

/-- A successful run of a sequence ending in `cleanupState` leaves no
`connection` in the final State. -/
lemma commonExecute_cleanup_last (xs : List Op) (s : JObj) (n : Nat)
    (w : World) (s' : JObj)
    (h : (commonExecute (xs ++ [cleanupState]) s n w).res = .ok s') :
    s'.fields.connection = none := by
  induction xs generalizing s n w with
  | nil =>
    simp [commonExecute, cleanupState] at h
    rw [← h]
  | cons op xs ih =>
    cases hres : (op s n w).res with
    | error e => simp [commonExecute, hres] at h
    | ok s₁ =>
      simp only [List.cons_append, commonExecute, hres] at h
      exact ih _ _ _ h

/-- C8: lifecycle invariant of `connection`.  It is absent before connect
(the initial spread preserves its absence), set by `connect` on its
output, preserved by every query-executing user Operation and by
`disconnect` (which returns its input State), removed by `cleanupState`,
and absent from the final State of every successful `execute` run. -/
theorem connection_lifecycle :
    (∀ (s : JObj), s.fields.connection = none →
      (spreadInit s.fields).connection = none) ∧
    (∀ (s : JObj) (n : Nat) (w : World) (cfg : Config),
      s.fields.configuration = some cfg →
      connect s n w =
        ⟨.ok ⟨n, { s.fields with connection := some ⟨cfg⟩ }⟩, n + 1, w,
          [.connectEv]⟩) ∧
    (∀ (q : QueryOp) (s : JObj) (n : Nat) (w : World) (s' : JObj),
      (mkQueryOp q s n w).res = .ok s' →
      s'.fields.connection = s.fields.connection) ∧
    (∀ (s : JObj) (n : Nat) (w : World) (c : Conn),
      s.fields.connection = some c →
      disconnect s n w = ⟨.ok s, n, w, [.endCall]⟩) ∧
    (∀ (s : JObj) (n : Nat) (w : World),
      (cleanupState s n w).res =
        .ok ⟨s.oid, { s.fields with connection := none }⟩) ∧
    (∀ (ops : List Op) (s : JObj) (n : Nat) (w : World) (s' : JObj),
      (execute ops s n w).res = .ok s' → s'.fields.connection = none) := by
  refine ⟨?_, ?_, ?_, ?_, ?_, ?_⟩
  · intro s h
    simpa [spreadInit] using h
  · intro s n w cfg h
    simp [connect, h]
  · intro q s n w s' h
    obtain ⟨b, rfl⟩ := mkQueryOp_ok_shape h
    rfl
  · intro s n w c h
    simp [disconnect, h]
  · intro s n w
    rfl
  · intro ops s n w s' h
    unfold execute at h
    rw [show (connect :: ops) ++ [disconnect, cleanupState] =
      ((connect :: ops) ++ [disconnect]) ++ [cleanupState] by simp] at h
    exact commonExecute_cleanup_last _ _ _ _ _ h

/-- Concrete instantiation of `connection_lifecycle`: each conjunct
applied to sample States, a sample query Operation, and the empty user
pipeline. -/
theorem connection_lifecycle_witness :
    (spreadInit S0.fields).connection = none ∧
    connect S0 3 (wOk .null) =
      ⟨.ok ⟨3, { S0.fields with connection := some ⟨cfg0⟩ }⟩, 4, wOk .null,
        [.connectEv]⟩ ∧
    ({ SC.fields with response := some ⟨.null⟩ } : SqlFields).connection =
      SC.fields.connection ∧
    disconnect SC 3 (wOk .null) = ⟨.ok SC, 3, wOk .null, [.endCall]⟩ ∧
    (cleanupState SC 3 (wOk .null)).res =
      .ok ⟨SC.oid, { SC.fields with connection := none }⟩ ∧
    (⟨(afterConnect S0 0 cfg0).oid,
      { (afterConnect S0 0 cfg0).fields with connection := none }⟩ :
        JObj).fields.connection = none :=
  ⟨connection_lifecycle.1 S0 rfl,
   connection_lifecycle.2.1 S0 3 (wOk .null) cfg0 rfl,
   connection_lifecycle.2.2.1 (.sqlS fun _ => "SELECT 1".data) SC 3
     (wOk .null) ⟨3, { SC.fields with response := some ⟨.null⟩ }⟩ rfl,
   connection_lifecycle.2.2.2.1 SC 3 (wOk .null) ⟨cfg0⟩ rfl,
   connection_lifecycle.2.2.2.2.1 SC 3 (wOk .null),
   connection_lifecycle.2.2.2.2.2 [] S0 0 (wOk .null)
     ⟨(afterConnect S0 0 cfg0).oid,
      { (afterConnect S0 0 cfg0).fields with connection := none }⟩ rfl⟩

/-- C9 fails on the code: `cleanupState` does not produce a new State
value — at a concrete State with a connection, its successful output is
the very object it received (same object identity), with the
`connection` field deleted in place. -/
theorem cleanupState_no_copy_counterexample :
    ¬ (∀ out : JObj, (cleanupState SC 5 (wOk .null)).res = .ok out →
        out.oid ≠ SC.oid) := fun h =>
  h ⟨SC.oid, { SC.fields with connection := none }⟩ rfl rfl

/-- C9 amended: `connect` and the query-executing Operations do return
fresh shallow copies (allocated at the supply's next id, all fields they
do not update unchanged); but `disconnect` returns the received State
object itself, and `cleanupState` returns the received object with
`connection` deleted in place — a mutation of its input, not a copy. -/
theorem state_copying_amended :
    (∀ (s : JObj) (n : Nat) (w : World) (cfg : Config),
      s.fields.configuration = some cfg →
      (connect s n w).res =
        .ok ⟨n, { s.fields with connection := some ⟨cfg⟩ }⟩) ∧
    (∀ (q : QueryOp) (s : JObj) (n : Nat) (w : World) (s' : JObj),
      (mkQueryOp q s n w).res = .ok s' →
      s'.oid = n ∧
      s'.fields.configuration = s.fields.configuration ∧
      s'.fields.connection = s.fields.connection ∧
      s'.fields.references = s.fields.references ∧
      s'.fields.data = s.fields.data) ∧
    (∀ (s : JObj) (n : Nat) (w : World) (c : Conn),
      s.fields.connection = some c → (disconnect s n w).res = .ok s) ∧
    (∀ (s : JObj) (n : Nat) (w : World),
      cleanupState s n w =
        ⟨.ok ⟨s.oid, { s.fields with connection := none }⟩, n, w, []⟩) := by
  refine ⟨?_, ?_, ?_, ?_⟩
  · intro s n w cfg h
    simp [connect, h]
  · intro q s n w s' h
    obtain ⟨b, rfl⟩ := mkQueryOp_ok_shape h
    exact ⟨rfl, rfl, rfl, rfl, rfl⟩
  · intro s n w c h
    simp [disconnect, h]
  · intro s n w
    rfl

/-- Concrete instantiation of `state_copying_amended`. -/
theorem state_copying_amended_witness :
    (connect S0 3 (wOk .null)).res =
      .ok ⟨3, { S0.fields with connection := some ⟨cfg0⟩ }⟩ ∧
    ((⟨9, { SC.fields with response := some ⟨.null⟩ }⟩ : JObj).oid = 9 ∧
      ({ SC.fields with response := some ⟨.null⟩ } : SqlFields).configuration =
        SC.fields.configuration ∧
      ({ SC.fields with response := some ⟨.null⟩ } : SqlFields).connection =
        SC.fields.connection ∧
      ({ SC.fields with response := some ⟨.null⟩ } : SqlFields).references =
        SC.fields.references ∧
      ({ SC.fields with response := some ⟨.null⟩ } : SqlFields).data =
        SC.fields.data) ∧
    (disconnect SC 3 (wOk .null)).res = .ok SC ∧
    cleanupState SC 3 (wOk .null) =
      ⟨.ok ⟨SC.oid, { SC.fields with connection := none }⟩, 3, wOk .null, []⟩ :=
  ⟨state_copying_amended.1 S0 3 (wOk .null) cfg0 rfl,
   state_copying_amended.2.1 (.sqlS fun _ => "SELECT 1".data) SC 9
     (wOk .null) ⟨9, { SC.fields with response := some ⟨.null⟩ }⟩ rfl,
   state_copying_amended.2.2.1 SC 3 (wOk .null) ⟨cfg0⟩ rfl,
   state_copying_amended.2.2.2 SC 3 (wOk .null)⟩

/-- The empty input has no digit head. -/
lemma noDigitHead_nil : noDigitHead [] := fun d hd => by simp at hd

/-- A non-digit head gives `noDigitHead`. -/
lemma noDigitHead_cons (c : Char) (s : Str) (h : isDigitC c = false) :
    noDigitHead (c :: s) := by
  intro d hd
  simp only [List.head?_cons, Option.some.injEq] at hd
  subst hd
  exact h

/-- Digit characters decode to their digit value. -/
lemma digitChar_toNat : ∀ d : Nat, d < 10 → (Nat.digitChar d).toNat = 48 + d := by
  decide

/-- Digit characters pass the digit test. -/
lemma digitChar_digit : ∀ d : Nat, d < 10 →
    isDigitC (Nat.digitChar d) = true := by
  decide

/-- The digit scanner folds a run of digits and stops at the first
non-digit. -/
lemma parseDigitsAux_append (ds : Str) (acc : Nat) (rest : Str)
    (hds : ∀ c ∈ ds, isDigitC c = true) (hrest : noDigitHead rest) :
    parseDigitsAux acc (ds ++ rest) =
      (ds.foldl (fun a c => a * 10 + (c.toNat - 48)) acc, rest) := by
  induction ds generalizing acc with
  | nil =>
    cases rest with
    | nil => rfl
    | cons c r =>
      have hc := hrest c rfl
      simp [parseDigitsAux, hc]
  | cons d ds ih =>
    have hd := hds d (List.mem_cons_self d ds)
    simp only [List.cons_append, parseDigitsAux, hd, if_true, List.foldl_cons]
    exact ih _ fun c hc => hds c (List.mem_cons_of_mem d hc)

/-- Folding the rendered digits of `n` recovers `n` (positionally shifted
past the accumulator). -/
lemma natRenderAux_foldl (f : Nat) : ∀ (n acc : Nat), n < 10 ^ f →
    (natRenderAux f n).foldl (fun a c => a * 10 + (c.toNat - 48)) acc =
      acc * 10 ^ (natRenderAux f n).length + n := by
  induction f with
  | zero =>
    intro n acc h
    have hn : n = 0 := by simpa using Nat.lt_one_iff.mp (by simpa using h)
    subst hn
    simp [natRenderAux]
  | succ f ih =>
    intro n acc h
    by_cases hn : n = 0
    · subst hn; simp [natRenderAux]
    · have hdiv : n / 10 < 10 ^ f := by
        have hlt : n < 10 ^ f * 10 := by
          rw [← pow_succ]; exact h
        omega
      simp only [natRenderAux, hn, if_false, List.foldl_append,
        List.foldl_cons, List.foldl_nil]
      rw [ih _ _ hdiv]
      have hmod : (Nat.digitChar (n % 10)).toNat = 48 + n % 10 :=
        digitChar_toNat _ (Nat.mod_lt n (by norm_num))
      rw [hmod]
      simp only [List.length_append, List.length_cons, List.length_nil,
        Nat.zero_add, pow_succ, ← mul_assoc]
      omega

/-- Every character the renderer emits is a digit. -/
lemma natRenderAux_digits (f : Nat) : ∀ n, ∀ c ∈ natRenderAux f n,
    isDigitC c = true := by
  induction f with
  | zero => intro n c hc; simp [natRenderAux] at hc
  | succ f ih =>
    intro n c hc
    by_cases hn : n = 0
    · subst hn; simp [natRenderAux] at hc
    · simp only [natRenderAux, hn, if_false] at hc
      rcases List.mem_append.mp hc with hc | hc
      · exact ih _ c hc
      · simp only [List.mem_singleton] at hc
        subst hc
        exact digitChar_digit _ (Nat.mod_lt n (by norm_num))

/-- Every character of the decimal text is a digit. -/
lemma natRender_digits (n : Nat) : ∀ c ∈ natRender n, isDigitC c = true := by
  unfold natRender
  by_cases hn : n = 0
  · subst hn; decide
  · simp only [hn, if_false]
    exact natRenderAux_digits (n + 1) n

/-- The decimal text is never empty. -/
lemma natRender_ne_nil (n : Nat) : natRender n ≠ [] := by
  unfold natRender
  by_cases hn : n = 0
  · simp [hn]
  · simp [natRenderAux, hn]

/-- Folding the full decimal text of `n` recovers `n`. -/
lemma foldl_natRender (n : Nat) :
    (natRender n).foldl (fun a c => a * 10 + (c.toNat - 48)) 0 = n := by
  unfold natRender
  by_cases hn : n = 0
  · subst hn; decide
  · simp only [hn, if_false]
    have h10 : n < 10 ^ (n + 1) := by
      calc n < 10 ^ n := Nat.lt_pow_self (by norm_num) n
      _ ≤ 10 ^ (n + 1) := Nat.pow_le_pow_right (by norm_num) (Nat.le_succ n)
    simpa using natRenderAux_foldl (n + 1) n 0 h10

/-- Parsing a rendered natural number back. -/
lemma parseNatNum_natRender (n : Nat) (rest : Str) (hrest : noDigitHead rest) :
    parseNatNum (natRender n ++ rest) = some (n, rest) := by
  obtain ⟨c, cs, hccs⟩ : ∃ c cs, natRender n = c :: cs := by
    cases h : natRender n with
    | nil => exact absurd h (natRender_ne_nil n)
    | cons c cs => exact ⟨c, cs, rfl⟩
  have hdigs := natRender_digits n
  have hc : isDigitC c = true := hdigs c (by rw [hccs]; exact List.mem_cons_self _ _)
  rw [hccs, List.cons_append]
  simp only [parseNatNum, hc, if_true]
  have hcs : ∀ x ∈ cs, isDigitC x = true := fun x hx =>
    hdigs x (by rw [hccs]; exact List.mem_cons_of_mem _ hx)
  rw [parseDigitsAux_append cs _ rest hcs hrest]
  have hfold : cs.foldl (fun a c => a * 10 + (c.toNat - 48)) (c.toNat - 48) = n := by
    have h0 := foldl_natRender n
    rw [hccs] at h0
    simpa using h0
  rw [hfold]

/-- Parsing a rendered integer back. -/
lemma parseNum_intRender (n : Int) (rest : Str) (hrest : noDigitHead rest) :
    parseNum (intRender n ++ rest) = some (.num n, rest) := by
  by_cases hn : n < 0
  · simp only [intRender, hn, if_true, List.cons_append]
    simp only [parseNum, if_pos rfl]
    rw [parseNatNum_natRender _ _ hrest]
    have habs : -((n.natAbs : Int)) = n := by
      have := Int.ofNat_natAbs_of_nonpos (Int.le_of_lt hn)
      omega
    show some (JValue.num (-((n.natAbs : Int))), rest) = some (JValue.num n, rest)
    rw [habs]
  · simp only [intRender, hn, if_false]
    obtain ⟨c, cs, hccs⟩ : ∃ c cs, natRender n.natAbs = c :: cs := by
      cases h : natRender n.natAbs with
      | nil => exact absurd h (natRender_ne_nil _)
      | cons c cs => exact ⟨c, cs, rfl⟩
    have hc : isDigitC c = true :=
      natRender_digits n.natAbs c (by rw [hccs]; exact List.mem_cons_self _ _)
    have hcdash : c ≠ '-' := by
      intro h
      subst h
      exact absurd hc (by decide)
    rw [hccs, List.cons_append]
    simp only [parseNum, if_neg hcdash]
    rw [← List.cons_append, ← hccs, parseNatNum_natRender _ _ hrest]
    have habs : ((n.natAbs : Int)) = n := Int.natAbs_of_nonneg (by omega)
    show some (JValue.num ((n.natAbs : Int)), rest) = some (JValue.num n, rest)
    rw [habs]

/-- Parsing an escaped string body back, up to the closing quote. -/
lemma parseJStr_roundtrip (s : Str) (rest : Str) :
    parseJStr (s.flatMap jEsc ++ '"' :: rest) = some (s, rest) := by
  induction s with
  | nil => rfl
  | cons c t ih =>
    by_cases hq : c = '"'
    · subst hq
      show (parseJStr (t.flatMap jEsc ++ '"' :: rest)).map
        (fun p => ('"' :: p.1, p.2)) = some ('"' :: t, rest)
      rw [ih]
      rfl
    · by_cases hb : c = '\\'
      · subst hb
        show (parseJStr (t.flatMap jEsc ++ '"' :: rest)).map
          (fun p => ('\\' :: p.1, p.2)) = some ('\\' :: t, rest)
        rw [ih]
        rfl
      · have hesc : jEsc c = [c] := by simp [jEsc, hq, hb]
        simp only [List.flatMap_cons, hesc, List.singleton_append,
          List.cons_append]
        simp [parseJStr, hq, hb, ih]

/-- The rendered integer begins with a minus sign or a digit. -/
lemma intRender_head (n : Int) :
    ∃ c cs, intRender n = c :: cs ∧ (c = '-' ∨ isDigitC c = true) := by
  unfold intRender
  by_cases hn : n < 0
  · simp only [hn, if_true]
    exact ⟨'-', natRender n.natAbs, rfl, Or.inl rfl⟩
  · simp only [hn, if_false]
    obtain ⟨c, cs, hccs⟩ : ∃ c cs, natRender n.natAbs = c :: cs := by
      cases h : natRender n.natAbs with
      | nil => exact absurd h (natRender_ne_nil _)
      | cons c cs => exact ⟨c, cs, rfl⟩
    exact ⟨c, cs, hccs,
      Or.inr (natRender_digits n.natAbs c
        (by rw [hccs]; exact List.mem_cons_self _ _))⟩

/-- Rendered JSON text is never empty. -/
lemma jsonStringify_ne_nil (v : JValue) : jsonStringify v ≠ [] := by
  cases v with
  | null => simp [jsonStringify]
  | num n =>
    obtain ⟨c, cs, h, _⟩ := intRender_head n
    simp [jsonStringify, h]
  | str s => simp [jsonStringify, strRender]
  | arr vs => simp [jsonStringify]
  | obj kvs => simp [jsonStringify]

/-- Rendered JSON text never begins with a list or object closer. -/
lemma jsonStringify_head_ne (v : JValue) (c : Char) (cs : Str)
    (h : jsonStringify v = c :: cs) : c ≠ ']' ∧ c ≠ braceR := by
  cases v with
  | null =>
    have hc : c = 'n' := by
      have : ('n' : Char) :: "ull".data = c :: cs := h
      exact (List.cons.injEq _ _ _ _ ▸ this).1.symm
    subst hc
    exact ⟨by decide, by decide⟩
  | num n =>
    obtain ⟨c', cs', h', hd⟩ := intRender_head n
    have hh : jsonStringify (.num n) = c' :: cs' := h'
    rw [h] at hh
    have hc : c = c' := (List.cons.injEq _ _ _ _ ▸ hh).1
    subst hc
    rcases hd with rfl | hdig
    · exact ⟨by decide, by decide⟩
    · constructor <;> intro hEq <;> rw [hEq] at hdig <;>
        exact absurd hdig (by decide)
  | str s =>
    have hc : c = '"' := by
      have : ('"' : Char) :: (s.flatMap jEsc ++ ['"']) = c :: cs := h
      exact (List.cons.injEq _ _ _ _ ▸ this).1.symm
    subst hc
    exact ⟨by decide, by decide⟩
  | arr vs =>
    have hc : c = '[' := by
      have : ('[' : Char) :: (jsonStringifyList vs ++ [']']) = c :: cs := by
        simpa [jsonStringify] using h
      exact (List.cons.injEq _ _ _ _ ▸ this).1.symm
    subst hc
    exact ⟨by decide, by decide⟩
  | obj kvs =>
    have hc : c = braceL := by
      have : braceL :: (jsonStringifyMembers kvs ++ [braceR]) = c :: cs := by
        simpa [jsonStringify] using h
      exact (List.cons.injEq _ _ _ _ ▸ this).1.symm
    subst hc
    exact ⟨by decide, by decide⟩

/-- The element rendering of a nonempty list extends its head's
rendering. -/
lemma jsonStringifyList_cons (v : JValue) (vs : List JValue) :
    ∃ r, jsonStringifyList (v :: vs) = jsonStringify v ++ r := by
  cases vs with
  | nil => exact ⟨[], (List.append_nil _).symm⟩
  | cons w ws => exact ⟨',' :: jsonStringifyList (w :: ws), rfl⟩

/-- The member rendering of a nonempty list starts with a quote. -/
lemma jsonStringifyMembers_head (kv : Str × JValue)
    (kvs : List (Str × JValue)) :
    ∃ r, jsonStringifyMembers (kv :: kvs) = '"' :: r := by
  cases kvs with
  | nil =>
    exact ⟨(kv.1.flatMap jEsc ++ ['"']) ++ (':' :: jsonStringify kv.2),
      by simp [jsonStringifyMembers, strRender]⟩
  | cons kw kws =>
    exact ⟨(kv.1.flatMap jEsc ++ ['"']) ++
      (':' :: (jsonStringify kv.2 ++ ',' :: jsonStringifyMembers (kw :: kws))),
      by simp [jsonStringifyMembers, strRender]⟩

/-- Every JSON value has positive size. -/
lemma jm_pos (v : JValue) : 1 ≤ jm v := by
  cases v <;> simp [jm]

/-- Nonempty element lists have positive size. -/
lemma jmL_pos (vs : List JValue) (h : vs ≠ []) : 1 ≤ jmL vs := by
  cases vs with
  | nil => exact absurd rfl h
  | cons v vs => simp [jmL]; omega

/-- Nonempty member lists have positive size. -/
lemma jmKV_pos (kvs : List (Str × JValue)) (h : kvs ≠ []) : 1 ≤ jmKV kvs := by
  cases kvs with
  | nil => exact absurd rfl h
  | cons kv kvs => simp [jmKV]; omega

/-- Parsing inverts rendering, with enough fuel: a rendered value parses
back to itself leaving the (digit-free-headed) rest; rendered element and
member lists parse back up to their closing bracket or brace. -/
lemma parse_stringify_fuel (f : Nat) :
    (∀ (v : JValue) (rest : Str), jm v ≤ f → noDigitHead rest →
      parseVal f (jsonStringify v ++ rest) = some (v, rest)) ∧
    (∀ (vs : List JValue) (rest : Str), jmL vs ≤ f → vs ≠ [] →
      parseItems f (jsonStringifyList vs ++ ']' :: rest) = some (vs, rest)) ∧
    (∀ (kvs : List (Str × JValue)) (rest : Str), jmKV kvs ≤ f → kvs ≠ [] →
      parseMembers f (jsonStringifyMembers kvs ++ braceR :: rest) =
        some (kvs, rest)) := by
  induction f with
  | zero =>
    refine ⟨?_, ?_, ?_⟩
    · intro v rest hle _
      exact absurd hle (by have := jm_pos v; omega)
    · intro vs rest hle hne
      exact absurd hle (by have := jmL_pos vs hne; omega)
    · intro kvs rest hle hne
      exact absurd hle (by have := jmKV_pos kvs hne; omega)
  | succ f ih =>
    obtain ⟨ihV, ihL, ihKV⟩ := ih
    refine ⟨?_, ?_, ?_⟩
    · intro v rest hle hrest
      cases v with
      | null => rfl
      | num n =>
        obtain ⟨c, cs, hccs, hd⟩ := intRender_head n
        have hne : c ≠ '"' ∧ c ≠ '[' ∧ c ≠ braceL ∧ c ≠ 'n' := by
          rcases hd with rfl | hdig
          · exact ⟨by decide, by decide, by decide, by decide⟩
          · refine ⟨?_, ?_, ?_, ?_⟩ <;> intro hEq <;> rw [hEq] at hdig <;>
              exact absurd hdig (by decide)
        rw [show jsonStringify (.num n) = intRender n from rfl, hccs,
          List.cons_append]
        simp only [parseVal, if_neg hne.1, if_neg hne.2.1, if_neg hne.2.2.1,
          if_neg hne.2.2.2]
        rw [← List.cons_append, ← hccs]
        exact parseNum_intRender n rest hrest
      | str sstr =>
        show (parseJStr ((sstr.flatMap jEsc ++ ['"']) ++ rest)).map
          (fun p => (JValue.str p.1, p.2)) = some (.str sstr, rest)
        rw [List.append_assoc, List.singleton_append, parseJStr_roundtrip]
        rfl
      | arr vs =>
        cases vs with
        | nil => rfl
        | cons v vs' =>
          have hle' : jmL (v :: vs') ≤ f := by
            simp only [jm] at hle; omega
          have hinput : jsonStringify (.arr (v :: vs')) ++ rest =
              '[' :: (jsonStringifyList (v :: vs') ++ ']' :: rest) := by
            show (('[' :: jsonStringifyList (v :: vs')) ++ [']']) ++ rest = _
            simp
          rw [hinput]
          have hhead : ¬ ((jsonStringifyList (v :: vs') ++ ']' :: rest).head? =
              some ']') := by
            obtain ⟨r, hr⟩ := jsonStringifyList_cons v vs'
            obtain ⟨c, cs, hccs⟩ : ∃ c cs, jsonStringify v = c :: cs := by
              cases h : jsonStringify v with
              | nil => exact absurd h (jsonStringify_ne_nil v)
              | cons c cs => exact ⟨c, cs, rfl⟩
            have hnc := (jsonStringify_head_ne v c cs hccs).1
            rw [hr, hccs]
            simp [hnc]
          have hstep : parseVal (f + 1)
              ('[' :: (jsonStringifyList (v :: vs') ++ ']' :: rest)) =
              (if (jsonStringifyList (v :: vs') ++ ']' :: rest).head? =
                  some ']' then
                some (.arr [], (jsonStringifyList (v :: vs') ++ ']' :: rest).tail)
              else
                (parseItems f (jsonStringifyList (v :: vs') ++ ']' :: rest)).map
                  fun p => (.arr p.1, p.2)) := rfl
          rw [hstep, if_neg hhead, ihL (v :: vs') rest hle' (by simp)]
          rfl
      | obj kvs =>
        cases kvs with
        | nil => rfl
        | cons kv kvs' =>
          have hle' : jmKV (kv :: kvs') ≤ f := by
            simp only [jm] at hle; omega
          have hinput : jsonStringify (.obj (kv :: kvs')) ++ rest =
              braceL :: (jsonStringifyMembers (kv :: kvs') ++ braceR :: rest) := by
            show ((braceL :: jsonStringifyMembers (kv :: kvs')) ++ [braceR])
              ++ rest = _
            simp
          rw [hinput]
          have hhead : ¬ ((jsonStringifyMembers (kv :: kvs') ++
              braceR :: rest).head? = some braceR) := by
            obtain ⟨r, hr⟩ := jsonStringifyMembers_head kv kvs'
            rw [hr]
            simp
            decide
          have hstep : parseVal (f + 1)
              (braceL :: (jsonStringifyMembers (kv :: kvs') ++ braceR :: rest)) =
              (if (jsonStringifyMembers (kv :: kvs') ++ braceR :: rest).head? =
                  some braceR then
                some (.obj [],
                  (jsonStringifyMembers (kv :: kvs') ++ braceR :: rest).tail)
              else
                (parseMembers f
                  (jsonStringifyMembers (kv :: kvs') ++ braceR :: rest)).map
                  fun p => (.obj p.1, p.2)) := rfl
          rw [hstep, if_neg hhead, ihKV (kv :: kvs') rest hle' (by simp)]
          rfl
    · intro vs rest hle hne
      cases vs with
      | nil => exact absurd rfl hne
      | cons v vs' =>
        cases vs' with
        | nil =>
          have hjm : jm v ≤ f := by simp only [jmL] at hle; omega
          rw [show jsonStringifyList [v] = jsonStringify v from rfl]
          have hstep : ∀ s : Str, parseItems (f + 1) s =
              (match parseVal f s with
               | none => none
               | some p =>
                 if p.2.head? = some ',' then
                   match parseItems f p.2.tail with
                   | some q => some (p.1 :: q.1, q.2)
                   | none => none
                 else if p.2.head? = some ']' then some ([p.1], p.2.tail)
                 else none) := fun s => rfl
          rw [hstep, ihV v (']' :: rest) hjm (noDigitHead_cons _ _ (by decide))]
          rfl
        | cons w ws =>
          have hjm : jm v ≤ f := by simp only [jmL] at hle; omega
          have hjmL : jmL (w :: ws) ≤ f := by
            simp only [jmL] at hle ⊢; omega
          have hinput : jsonStringifyList (v :: w :: ws) ++ ']' :: rest =
              jsonStringify v ++
                (',' :: (jsonStringifyList (w :: ws) ++ ']' :: rest)) := by
            show (jsonStringify v ++ ',' :: jsonStringifyList (w :: ws)) ++
              ']' :: rest = _
            simp
          rw [hinput]
          have hstep : ∀ s : Str, parseItems (f + 1) s =
              (match parseVal f s with
               | none => none
               | some p =>
                 if p.2.head? = some ',' then
                   match parseItems f p.2.tail with
                   | some q => some (p.1 :: q.1, q.2)
                   | none => none
                 else if p.2.head? = some ']' then some ([p.1], p.2.tail)
                 else none) := fun s => rfl
          rw [hstep,
            ihV v (',' :: (jsonStringifyList (w :: ws) ++ ']' :: rest)) hjm
              (noDigitHead_cons _ _ (by decide))]
          simp [ihL (w :: ws) rest hjmL (by simp)]
    · intro kvs rest hle hne
      cases kvs with
      | nil => exact absurd rfl hne
      | cons kv kvs' =>
        have hjm : jm kv.2 ≤ f := by simp only [jmKV] at hle; omega
        have hstep : ∀ s : Str, parseMembers (f + 1) s =
            (if s.head? = some '"' then
              match parseJStr s.tail with
              | none => none
              | some kp =>
                if kp.2.head? = some ':' then
                  match parseVal f kp.2.tail with
                  | none => none
                  | some vp =>
                    if vp.2.head? = some ',' then
                      match parseMembers f vp.2.tail with
                      | some q => some ((kp.1, vp.1) :: q.1, q.2)
                      | none => none
                    else if vp.2.head? = some braceR then
                      some ([(kp.1, vp.1)], vp.2.tail)
                    else none
                else none
            else none) := fun s => rfl
        cases kvs' with
        | nil =>
          have hinput : jsonStringifyMembers [kv] ++ braceR :: rest =
              '"' :: (kv.1.flatMap jEsc ++
                '"' :: (':' :: (jsonStringify kv.2 ++ braceR :: rest))) := by
            show (strRender kv.1 ++ ':' :: jsonStringify kv.2) ++
              braceR :: rest = _
            simp [strRender]
          rw [hinput, hstep]
          simp only [List.head?_cons, List.tail_cons, if_pos rfl]
          rw [parseJStr_roundtrip]
          simp only [List.head?_cons, List.tail_cons]
          rw [ihV kv.2 (braceR :: rest) hjm
            (noDigitHead_cons _ _ (by decide))]
          simp only [List.head?_cons, List.tail_cons]
          rw [if_neg (show ¬ (some braceR = some (',' : Char)) from by decide)]
          simp
        | cons kw kws =>
          have hjmKV : jmKV (kw :: kws) ≤ f := by
            simp only [jmKV] at hle ⊢; omega
          have hinput : jsonStringifyMembers (kv :: kw :: kws) ++
              braceR :: rest =
              '"' :: (kv.1.flatMap jEsc ++
                '"' :: (':' :: (jsonStringify kv.2 ++
                  ',' :: (jsonStringifyMembers (kw :: kws) ++
                    braceR :: rest)))) := by
            show (strRender kv.1 ++ ':' :: jsonStringify kv.2 ++
              ',' :: jsonStringifyMembers (kw :: kws)) ++ braceR :: rest = _
            simp [strRender]
          rw [hinput, hstep]
          simp only [List.head?_cons, List.tail_cons, if_pos rfl]
          rw [parseJStr_roundtrip]
          simp only [List.head?_cons, List.tail_cons]
          rw [ihV kv.2
            (',' :: (jsonStringifyMembers (kw :: kws) ++ braceR :: rest)) hjm
            (noDigitHead_cons _ _ (by decide))]
          simp [ihKV (kw :: kws) rest hjmKV (by simp)]

/-- The size measure is bounded by the rendered length (so the input's
length is enough parser fuel). -/
lemma jm_le_len_fuel (n : Nat) :
    (∀ v, jm v ≤ n → jm v ≤ (jsonStringify v).length) ∧
    (∀ vs, jmL vs ≤ n → vs ≠ [] →
      jmL vs ≤ 1 + (jsonStringifyList vs).length) ∧
    (∀ kvs, jmKV kvs ≤ n → kvs ≠ [] →
      jmKV kvs ≤ 1 + (jsonStringifyMembers kvs).length) := by
  induction n with
  | zero =>
    refine ⟨?_, ?_, ?_⟩
    · intro v hle
      exact absurd hle (by have := jm_pos v; omega)
    · intro vs hle hne
      exact absurd hle (by have := jmL_pos vs hne; omega)
    · intro kvs hle hne
      exact absurd hle (by have := jmKV_pos kvs hne; omega)
  | succ n ih =>
    obtain ⟨ihV, ihL, ihKV⟩ := ih
    refine ⟨?_, ?_, ?_⟩
    · intro v hle
      cases v with
      | null => decide
      | num n' =>
        have hne : intRender n' ≠ [] := by
          obtain ⟨c, cs, h', _⟩ := intRender_head n'
          simp [h']
        have : 0 < (intRender n').length := List.length_pos.mpr hne
        simp only [jm, jsonStringify]
        omega
      | str sstr =>
        have h1 : jm (.str sstr) = 1 := rfl
        rw [h1]
        simp [jsonStringify, strRender]
      | arr vs =>
        cases vs with
        | nil =>
          simp [jm, jmL, jsonStringify, jsonStringifyList]
        | cons v vs' =>
          have hb : jmL (v :: vs') ≤ n := by
            simp only [jm] at hle; omega
          have h := ihL (v :: vs') hb (by simp)
          simp only [jm, jsonStringify, List.length_cons, List.length_append]
          omega
      | obj kvs =>
        cases kvs with
        | nil =>
          simp [jm, jmKV, jsonStringify, jsonStringifyMembers]
        | cons kv kvs' =>
          have hb : jmKV (kv :: kvs') ≤ n := by
            simp only [jm] at hle; omega
          have h := ihKV (kv :: kvs') hb (by simp)
          simp only [jm, jsonStringify, List.length_cons, List.length_append]
          omega
    · intro vs hle hne
      cases vs with
      | nil => exact absurd rfl hne
      | cons v vs' =>
        cases vs' with
        | nil =>
          have hb : jm v ≤ n := by simp only [jmL] at hle; omega
          have h := ihV v hb
          simp only [jmL, jsonStringifyList]
          omega
        | cons w ws =>
          have hbv : jm v ≤ n := by simp only [jmL] at hle; omega
          have hbl : jmL (w :: ws) ≤ n := by
            simp only [jmL] at hle ⊢; omega
          have h1 := ihV v hbv
          have h2 := ihL (w :: ws) hbl (by simp)
          simp only [jmL, jsonStringifyList, List.length_append,
            List.length_cons] at h2 ⊢
          omega
    · intro kvs hle hne
      cases kvs with
      | nil => exact absurd rfl hne
      | cons kv kvs' =>
        cases kvs' with
        | nil =>
          have hb : jm kv.2 ≤ n := by simp only [jmKV] at hle; omega
          have h := ihV kv.2 hb
          simp only [jmKV, jsonStringifyMembers, strRender,
            List.length_append, List.length_cons]
          omega
        | cons kw kws =>
          have hbv : jm kv.2 ≤ n := by simp only [jmKV] at hle; omega
          have hbl : jmKV (kw :: kws) ≤ n := by
            simp only [jmKV] at hle ⊢; omega
          have h1 := ihV kv.2 hbv
          have h2 := ihKV (kw :: kws) hbl (by simp)
          simp only [jmKV, jsonStringifyMembers, strRender,
            List.length_append, List.length_cons] at h2 ⊢
          omega

/-- The size measure is bounded by the rendered length. -/
lemma jm_le_len (v : JValue) : jm v ≤ (jsonStringify v).length :=
  (jm_le_len_fuel (jm v)).1 v le_rfl

/-- The serialize/deserialize pass is the identity on plain driver
results: parsing the rendered text recovers the value exactly. -/
theorem json_roundtrip (v : JValue) :
    jsonParse (jsonStringify v) = some v := by
  unfold jsonParse
  have h := (parse_stringify_fuel (jsonStringify v).length).1 v []
    (jm_le_len v) noDigitHead_nil
  rw [List.append_nil] at h
  rw [h]

/-- C7: the Operation returned by `sqlString(r)` sends `r(state)` to the
driver verbatim (its one query event is exactly that text) and, on
success, resolves to a State whose `response.body` is the
serialize/deserialize round-trip of the driver result — which, for plain
results (no control characters, the domain on which the JSON model is
faithful), is deep-equal to the driver's result itself. -/
theorem sqlString_roundtrip (fn : SqlFields → Str) (s : JObj) (n : Nat)
    (w : World) (c : Conn) (d : JValue)
    (hconn : s.fields.connection = some c)
    (hdb : w.db (fn s.fields) = .ok d)
    (hplain : plainB d = true) :
    sqlString fn s n w =
      ⟨.ok ⟨n, { s.fields with response := some ⟨d⟩ }⟩, n + 1, w,
        [.query (fn s.fields)]⟩ ∧
    jsonParse (jsonStringify d) = some d := by
  refine ⟨?_, json_roundtrip d⟩
  simp [sqlString, runQueryPromise, hconn, hdb, json_roundtrip d]

/-- Concrete instantiation of `sqlString_roundtrip`:
`sqlString(() => "SELECT 1")` against a driver returning `[\x7b1:1\x7d]`. -/
theorem sqlString_roundtrip_witness :
    sqlString (fun _ => "SELECT 1".data) SC 0
        (wOk (.arr [.obj [("1".data, .num 1)]])) =
      ⟨.ok ⟨0, { SC.fields with
          response := some ⟨.arr [.obj [("1".data, .num 1)]]⟩ }⟩, 1,
        wOk (.arr [.obj [("1".data, .num 1)]]),
        [.query "SELECT 1".data]⟩ ∧
    jsonParse (jsonStringify (.arr [.obj [("1".data, .num 1)]])) =
      some (.arr [.obj [("1".data, .num 1)]]) :=
  sqlString_roundtrip (fun _ => "SELECT 1".data) SC 0
    (wOk (.arr [.obj [("1".data, .num 1)]])) ⟨cfg0⟩
    (.arr [.obj [("1".data, .num 1)]]) rfl rfl (by decide)

/-- A prefix of an appended list no longer than the left part is a prefix
of the left part. -/
lemma prefix_of_append_of_length_le (x y z : Str) (h : x <+: y ++ z)
    (hl : x.length ≤ y.length) : x <+: y := by
  obtain ⟨t, ht⟩ := h
  have hx : x = (y ++ z).take x.length := by
    rw [← ht]
    exact (List.take_left x t).symm
  rw [List.take_append_of_le_length hl] at hx
  rw [hx]
  exact List.take_prefix _ _

/-- Occurrence counting distributes over append when no occurrence can
straddle the seam (no proper nonempty split of the pattern ends the left
part and starts the right part). -/
lemma occCount_append (p a b : Str)
    (hcross : ∀ k, 0 < k → k < p.length →
      ¬ (p.take k <:+ a ∧ p.drop k <+: b)) :
    occCount p (a ++ b) = occCount p a + occCount p b := by
  induction a with
  | nil => simp [occCount]
  | cons x a ih =>
    have hcross' : ∀ k, 0 < k → k < p.length →
        ¬ (p.take k <:+ a ∧ p.drop k <+: b) := by
      intro k hk0 hkl hk
      exact hcross k hk0 hkl ⟨hk.1.trans (List.suffix_cons x a), hk.2⟩
    have hhead : p.isPrefixOf ((x :: a) ++ b) = p.isPrefixOf (x :: a) := by
      by_cases h1 : p <+: (x :: a)
      · have h2 : p <+: (x :: a) ++ b := h1.trans (List.prefix_append _ _)
        rw [List.isPrefixOf_iff_prefix.mpr h1, List.isPrefixOf_iff_prefix.mpr h2]
      · by_cases h2 : p <+: (x :: a) ++ b
        · exfalso
          by_cases hl : p.length ≤ (x :: a).length
          · exact h1 (prefix_of_append_of_length_le p (x :: a) b h2 hl)
          · push_neg at hl
            obtain ⟨t, ht⟩ := h2
            have htake : p.take (x :: a).length = x :: a := by
              have h3 := congrArg (List.take (x :: a).length) ht
              rw [List.take_append_of_le_length (le_of_lt hl)] at h3
              rw [h3]
              exact List.take_left _ _
            have hdrop : p.drop (x :: a).length <+: b := by
              have h4 := congrArg (List.drop (x :: a).length) ht
              rw [List.drop_append_of_le_length (le_of_lt hl)] at h4
              rw [List.drop_left] at h4
              exact ⟨t, h4⟩
            exact hcross (x :: a).length (by simp) hl
              ⟨⟨[], by simpa using htake⟩, hdrop⟩
        · have e1 : p.isPrefixOf ((x :: a) ++ b) = false :=
            Bool.eq_false_iff.mpr fun hh =>
              h2 (List.isPrefixOf_iff_prefix.mp hh)
          have e2 : p.isPrefixOf (x :: a) = false :=
            Bool.eq_false_iff.mpr fun hh =>
              h1 (List.isPrefixOf_iff_prefix.mp hh)
          rw [e1, e2]
    show (if p.isPrefixOf (x :: (a ++ b)) then 1 else 0) + occCount p (a ++ b) =
      ((if p.isPrefixOf (x :: a) then 1 else 0) + occCount p a) + occCount p b
    rw [show (x : Char) :: (a ++ b) = (x :: a) ++ b from rfl, hhead, ih hcross']
    omega

/-- Splicing the ` ON DUPLICATE KEY UPDATE ` literal between keyword-free
texts yields exactly one occurrence of the clause keyword: no occurrence
can straddle either seam, because no proper split of the keyword matches
the space-delimited literal. -/
lemma occCount_upsert_splice (A B : Str)
    (hA : occCount odkuPat A = 0) (hB : occCount odkuPat B = 0) :
    occCount odkuPat (A ++ " ON DUPLICATE KEY UPDATE ".data ++ B) = 1 := by
  have hplen : odkuPat.length = 23 := by decide
  have hcross1 : ∀ k, 0 < k → k < odkuPat.length →
      ¬ (odkuPat.take k <:+ A ∧
        odkuPat.drop k <+: " ON DUPLICATE KEY UPDATE ".data ++ B) := by
    intro k hk0 hkl hk
    have hfact : ∀ j, j < 22 →
        ((odkuPat.drop (j + 1)).isPrefixOf
          " ON DUPLICATE KEY UPDATE ".data) = false := by decide
    rw [hplen] at hkl
    have hll : (" ON DUPLICATE KEY UPDATE ".data).length = 25 := by decide
    have hlen : (odkuPat.drop k).length ≤
        (" ON DUPLICATE KEY UPDATE ".data).length := by
      rw [List.length_drop, hplen, hll]
      omega
    have hpre := prefix_of_append_of_length_le _ _ _ hk.2 hlen
    have hb : (odkuPat.drop k).isPrefixOf " ON DUPLICATE KEY UPDATE ".data =
        true := List.isPrefixOf_iff_prefix.mpr hpre
    have hj := hfact (k - 1) (by omega)
    rw [show k - 1 + 1 = k from by omega, hb] at hj
    exact absurd hj (by decide)
  have hcross2 : ∀ k, 0 < k → k < odkuPat.length →
      ¬ (odkuPat.take k <:+ " ON DUPLICATE KEY UPDATE ".data ∧
        odkuPat.drop k <+: B) := by
    intro k hk0 hkl hk
    have hfact : ∀ j, j < 22 →
        ((odkuPat.take (j + 1)).isSuffixOf
          " ON DUPLICATE KEY UPDATE ".data) = false := by decide
    rw [hplen] at hkl
    have hb : (odkuPat.take k).isSuffixOf " ON DUPLICATE KEY UPDATE ".data =
        true := List.isSuffixOf_iff_suffix.mpr hk.1
    have hj := hfact (k - 1) (by omega)
    rw [show k - 1 + 1 = k from by omega, hb] at hj
    exact absurd hj (by decide)
  rw [List.append_assoc,
    occCount_append odkuPat A (" ON DUPLICATE KEY UPDATE ".data ++ B) hcross1,
    occCount_append odkuPat " ON DUPLICATE KEY UPDATE ".data B hcross2,
    hA, hB]
  decide

/-- C1 fails as stated: at a field value that itself spells the clause
keyword, the statement built by `upsert` contains three occurrences of
`ON DUPLICATE KEY UPDATE`, not exactly one. -/
theorem upsert_odku_counterexample :
    occCount odkuPat (upsertStatement "t".data
        [("a".data, SqlValue.str "x ON DUPLICATE KEY UPDATE y".data)]) = 3 ∧
    occCount odkuPat (upsertStatement "t".data
        [("a".data, SqlValue.str "x ON DUPLICATE KEY UPDATE y".data)]) ≠ 1 := by
  constructor
  · decide
  · decide

/-- C1 amended: for every table name and field mapping, the statement
built by `upsert` is the INSERT statement, the literal
` ON DUPLICATE KEY UPDATE `, and the rendered UPDATE statement with its
fixed-length 10-character prefix trimmed off — unconditionally; it
contains exactly one `ON DUPLICATE KEY UPDATE` clause whenever the clause
keyword does not already occur in the rendered INSERT statement or in the
trimmed assignment text (the counterexample shows each such occurrence
adds a spurious clause); and whenever the table name and the field names
are free of the driver's `?` placeholder (the C6 counterexample shows
`mysql.format` corrupts the rendering otherwise), the trimmed text is the
space-prefixed assignment list assigning exactly the same fields, with
the same values, as the INSERT clause. -/
theorem upsert_single_odku_clause_amended (t : Str)
    (fv : List (Str × SqlValue)) :
    upsertStatement t fv =
      insertStatement t fv ++ " ON DUPLICATE KEY UPDATE ".data ++
        (updateStatement fv).drop 10 ∧
    (occCount odkuPat (insertStatement t fv) = 0 →
      occCount odkuPat ((updateStatement fv).drop 10) = 0 →
      occCount odkuPat (upsertStatement t fv) = 1) ∧
    ('?' ∉ t → (∀ p ∈ fv, '?' ∉ p.1) →
      insertStatement t fv = insertRendered t fv ∧
      (updateStatement fv).drop 10 = ' ' :: assignListR fv) := by
  refine ⟨rfl, ?_, ?_⟩
  · intro h1 h2
    exact occCount_upsert_splice _ _ h1 h2
  · intro ht hk
    refine ⟨insertStatement_eq t fv ht hk, ?_⟩
    rw [updateStatement_eq fv hk,
      List.drop_append_of_le_length (by decide : 10 ≤ ("UPDATE SET ".data).length)]
    rfl

/-- Concrete instantiation of `upsert_single_odku_clause_amended` at
`upsert("YEARS", \x7ba: "Yes"\x7d)` — inputs whose letters overlap the
keyword's but which spell no clause, so both provisos hold. -/
theorem upsert_single_odku_clause_amended_witness :
    upsertStatement "YEARS".data [("a".data, SqlValue.str "Yes".data)] =
      insertStatement "YEARS".data [("a".data, SqlValue.str "Yes".data)] ++
        " ON DUPLICATE KEY UPDATE ".data ++
        (updateStatement [("a".data, SqlValue.str "Yes".data)]).drop 10 ∧
    occCount odkuPat
      (upsertStatement "YEARS".data [("a".data, SqlValue.str "Yes".data)]) = 1 ∧
    (insertStatement "YEARS".data [("a".data, SqlValue.str "Yes".data)] =
      insertRendered "YEARS".data [("a".data, SqlValue.str "Yes".data)] ∧
     (updateStatement [("a".data, SqlValue.str "Yes".data)]).drop 10 =
      ' ' :: assignListR [("a".data, SqlValue.str "Yes".data)]) :=
  ⟨(upsert_single_odku_clause_amended "YEARS".data
      [("a".data, SqlValue.str "Yes".data)]).1,
   (upsert_single_odku_clause_amended "YEARS".data
      [("a".data, SqlValue.str "Yes".data)]).2.1 (by decide) (by decide),
   (upsert_single_odku_clause_amended "YEARS".data
      [("a".data, SqlValue.str "Yes".data)]).2.2 (by decide) (by decide)⟩

/-- C6 fails as stated: at a legal (backquote-quoted) field name
containing the driver's `?` placeholder character, `mysql.format` splices
the values into the identifier, so the statement `insert` renders does
not carry the field names and values of `f`: the name renders as `a5b`
and the value list as `('x', ?)`. -/
theorem insert_misrender_counterexample :
    insertStatement "t".data
        [("a?b".data, SqlValue.int 5), ("c".data, SqlValue.str "x".data)] =
      "INSERT INTO t (`a5b`, `c`) VALUES ('x', ?)".data ∧
    insertStatement "t".data
        [("a?b".data, SqlValue.int 5), ("c".data, SqlValue.str "x".data)] ≠
      insertRendered "t".data
        [("a?b".data, SqlValue.int 5), ("c".data, SqlValue.str "x".data)] := by
  constructor
  · decide
  · decide

/-- C6 amended: when the driver executes its statement successfully, the
Operation returned by `insert(t, f)` resolves to a fresh State whose
`response.body` is exactly the driver's result object and whose one query
event is exactly the statement it rendered — unconditionally; and that
statement is the single-row INSERT into `t` whose quoted field names and
escaped values are exactly those of `f` after back-reference resolution,
whenever the table name and the resolved field names are free of the
driver's `?` placeholder (the counterexample shows the rendering is
corrupted otherwise). -/
theorem insert_success_amended (t : Str) (f : List (Str × FieldSpec))
    (s : JObj) (n : Nat) (w : World) (c : Conn) (d : JValue)
    (hconn : s.fields.connection = some c)
    (hdb : w.db (insertStatement t (resolveFields f s.fields)) = .ok d) :
    insert t f s n w =
      ⟨.ok ⟨n, { s.fields with response := some ⟨d⟩ }⟩, n + 1,
       ⟨w.db, .str (insertStatement t (resolveFields f s.fields))⟩,
       [.query (insertStatement t (resolveFields f s.fields))]⟩ ∧
    ('?' ∉ t → (∀ p ∈ resolveFields f s.fields, '?' ∉ p.1) →
      insertStatement t (resolveFields f s.fields) =
        insertRendered t (resolveFields f s.fields)) := by
  constructor
  · simp [insert, runQueryPromise, hconn, hdb]
  · intro ht hk
    exact insertStatement_eq _ _ ht hk

/-- Concrete instantiation of `insert_success_amended`: `insert("t",
\x7ba: 1, b: "x"\x7d)` against a driver returning an OK row. -/
theorem insert_success_amended_witness :
    insert "t".data [("a".data, .val (.int 1)), ("b".data, .val (.str "x".data))]
        SC 7 (wOk (.obj [("affectedRows".data, .num 1)])) =
      ⟨.ok ⟨7, { SC.fields with
          response := some ⟨.obj [("affectedRows".data, .num 1)]⟩ }⟩, 8,
       ⟨(wOk (.obj [("affectedRows".data, .num 1)])).db,
        .str (insertStatement "t".data
          (resolveFields
            [("a".data, .val (.int 1)), ("b".data, .val (.str "x".data))]
            SC.fields))⟩,
       [.query (insertStatement "t".data
          (resolveFields
            [("a".data, .val (.int 1)), ("b".data, .val (.str "x".data))]
            SC.fields))]⟩ ∧
    insertStatement "t".data
        (resolveFields
          [("a".data, .val (.int 1)), ("b".data, .val (.str "x".data))]
          SC.fields) =
      insertRendered "t".data
        (resolveFields
          [("a".data, .val (.int 1)), ("b".data, .val (.str "x".data))]
          SC.fields) :=
  ⟨(insert_success_amended "t".data
      [("a".data, .val (.int 1)), ("b".data, .val (.str "x".data))]
      SC 7 (wOk (.obj [("affectedRows".data, .num 1)])) ⟨cfg0⟩
      (.obj [("affectedRows".data, .num 1)]) rfl rfl).1,
   (insert_success_amended "t".data
      [("a".data, .val (.int 1)), ("b".data, .val (.str "x".data))]
      SC 7 (wOk (.obj [("affectedRows".data, .num 1)])) ⟨cfg0⟩
      (.obj [("affectedRows".data, .num 1)]) rfl rfl).2
     (by decide) (by decide)⟩

end Adaptor
